import Mathlib

/-!
# File explorer (`main.go`): scanner and session loop

A shallow embedding of `scanDirectory` and of the body of the loop of `main`.

* The operating system is a record of the three calls the program makes:
  `ioutil.ReadDir`, `filepath.Join` and `os.Stat`. A directory tree is related to
  it by `Forest.Mounted`.
* An `os.FileInfo` value is the record of the results of its methods. Sizes and
  instants are integers; no arithmetic is done on them.
* The goroutines spawned by one call of `scanDirectory` append blocks to the
  shared slice under the mutex; the order in which they take the mutex is
  given by a schedule, one list of choices per scanned path. The schedules
  produce exactly the interleavings of the appends (`waitGroup_iff_interleaving`).
* The recursion of `scanDirectory` is bounded by a natural number; the results
  on trees hold for every bound from the height of the tree on.
* `sort.Slice` belongs to the Go library; it is a parameter that carries the
  contract of its documentation (`SliceContract`). The two algorithms the library
  has used on short slices are given as instances, and `pdqsort_func` of Go 1.19
  and later is given in full.
* `fmt.Scanln(&choice)` is the integer scan of package `fmt` on the characters
  waiting on standard input (a 64-bit `int`, Go 1.13 and later); `choice` keeps
  what the scan has stored, whether or not the call returns an error.
-/

namespace FileExplorer

/-! ## Data model -/

/-- The record `FileInfo` of `main.go`. `Size` is an `int64`, `Permissions` an
`os.FileMode`, `Modification` the instant of a `time.Time`. -/
structure FileInfo where
  Name : String
  Size : Int
  IsDir : Bool
  Permissions : Nat
  Modification : Int
  deriving DecidableEq, Repr

/-- An `os.FileInfo` as returned by `ioutil.ReadDir`: the results of the methods
`Name()`, `Size()`, `Mode()`, `ModTime()` and `IsDir()`. -/
structure DirEntry where
  name : String
  size : Int
  mode : Nat
  modTime : Int
  isDir : Bool
  deriving DecidableEq, Repr

/-- The method `FileMode.Perm`: the mode masked with `ModePerm = 0o777`. -/
def perm (mode : Nat) : Nat := mode &&& 0o777

/-- The calls into the operating system. `readDir` is `ioutil.ReadDir`, `join` is
`filepath.Join`, `stat` is `os.Stat`; an error is its message. -/
structure OS where
  readDir : String → Except String (List DirEntry)
  join : String → String → String
  stat : String → Except String DirEntry

/-- The two results of `scanDirectory`: the slice and the error (`none` is `nil`). -/
abbrev ScanResult := List FileInfo × Option String

/-! ## Scheduling of the goroutines -/

/-- The appends one goroutine still has to make, in program order; each block is
appended while the mutex is held. -/
abbrev Pending := List (List FileInfo)

/-- The number of appends still to be made by all goroutines. -/
def blocks (units : List Pending) : Nat := (units.map List.length).sum

/-- The goroutine that takes the mutex next: the `k`-th of those with an append
left (the last of them when `k` is too large). Returns the block it appends and the
goroutines afterwards, `none` when every goroutine has finished. -/
def takeLock : Nat → List Pending → Option (List FileInfo × List Pending)
  | _, [] => none
  | k, [] :: us =>
    match takeLock k us with
    | some (b, us') => some (b, [] :: us')
    | none => none
  | 0, (b :: bs) :: us => some (b, bs :: us)
  | k + 1, (b :: bs) :: us =>
    match takeLock k us with
    | some (b', us') => some (b', (b :: bs) :: us')
    | none => some (b, bs :: us)

/-- The shared slice `files` after `n` more acquisitions of the mutex, the
goroutines being chosen by `sched` (the first runnable one once `sched` is used up). -/
def interleave : Nat → List Nat → List Pending → List FileInfo → List FileInfo
  | 0, _, _, files => files
  | n + 1, sched, units, files =>
    match takeLock (sched.headD 0) units with
    | none => files
    | some (b, units') => interleave n sched.tail units' (files ++ b)

/-- The state of `files` at `wg.Wait()`: all appends of all goroutines made. -/
def waitGroup (sched : List Nat) (units : List Pending) : List FileInfo :=
  interleave (blocks units) sched units []

/-- The slices that `wg.Wait()` can find, stated without a schedule: repeatedly
some goroutine that has an append left makes its next append. -/
inductive Interleaving : List Pending → List FileInfo → Prop where
  | done (units : List Pending) : blocks units = 0 → Interleaving units []
  | step (before after : List Pending) (b : List FileInfo) (bs : Pending)
      (rest : List FileInfo) :
      Interleaving (before ++ bs :: after) rest →
      Interleaving (before ++ (b :: bs) :: after) (b ++ rest)

/-- The number of goroutines that still have an append left. -/
def runnable : List Pending → Nat
  | [] => 0
  | [] :: us => runnable us
  | (_ :: _) :: us => runnable us + 1

/-! ## `scanDirectory` -/

/-- Lines 40-49: the `FileInfo` built for one entry; `Size` is only set for
non-directories and is otherwise the zero value. -/
def fileInfoOf (entry : DirEntry) : FileInfo :=
  { Name := entry.name
    Size := if !entry.isDir then entry.size else 0
    IsDir := entry.isDir
    Permissions := perm entry.mode
    Modification := entry.modTime }

/-- Lines 35-65: the appends made by the goroutine of one entry. `scan` is the
recursive call `scanDirectory(filePath, true)`; `none` means it has not returned. -/
def goroutine (os : OS) (scan : String → Option ScanResult) (path : String)
    (includeSubdirs : Bool) (entry : DirEntry) : Option Pending :=
  let filePath := os.join path entry.name
  let fileInfo := fileInfoOf entry
  if entry.isDir && includeSubdirs then
    match scan filePath with
    | none => none
    | some (_, some _) => some [[fileInfo]]
    | some (subdirFiles, none) => some [[fileInfo], subdirFiles]
  else some [[fileInfo]]

/-- Lines 33-66: one goroutine per entry. -/
def spawn (os : OS) (scan : String → Option ScanResult) (path : String)
    (includeSubdirs : Bool) : List DirEntry → Option (List Pending)
  | [] => some []
  | entry :: rest =>
    match goroutine os scan path includeSubdirs entry with
    | none => none
    | some u =>
      match spawn os scan path includeSubdirs rest with
      | none => none
      | some us => some (u :: us)

/-- The function `scanDirectory`. The first argument bounds the depth of the
recursion (`none`: the bound was reached); `sched path` is the order in which the
goroutines of the scan of `path` take the mutex. -/
def scanDirectory (os : OS) (sched : String → List Nat) :
    Nat → String → Bool → Option ScanResult
  | 0, _, _ => none
  | fuel + 1, path, includeSubdirs =>
    match os.readDir path with
    | .error err => some ([], some err)
    | .ok entries =>
      match spawn os (fun p => scanDirectory os sched fuel p true) path includeSubdirs entries with
      | none => none
      | some units => some (waitGroup (sched path) units, none)

/-! ## Directory trees -/

/-- The metadata of one filesystem object. -/
structure Stat where
  name : String
  size : Int
  mode : Nat
  modTime : Int
  deriving DecidableEq, Repr

/-- The contents of a directory: a finite list of files and of directories with
their own contents. A directory is `readable` when `ioutil.ReadDir` lists it. -/
inductive Forest where
  | nil : Forest
  | file (m : Stat) (rest : Forest) : Forest
  | dir (m : Stat) (readable : Bool) (children : Forest) (rest : Forest) : Forest
  deriving Repr

/-- What `ioutil.ReadDir` returns for an object with metadata `m`. -/
def Stat.entry (m : Stat) (isDir : Bool) : DirEntry :=
  { name := m.name, size := m.size, mode := m.mode, modTime := m.modTime, isDir := isDir }

/-- The direct children of a directory. -/
def Forest.entries : Forest → List DirEntry
  | .nil => []
  | .file m rest => m.entry false :: rest.entries
  | .dir m _ _ rest => m.entry true :: rest.entries

/-- Every object below the directory, at any depth. -/
def Forest.objects : Forest → List DirEntry
  | .nil => []
  | .file m rest => m.entry false :: rest.objects
  | .dir m _ children rest => m.entry true :: (children.objects ++ rest.objects)

/-- The number of objects below the directory, at any depth. -/
def Forest.count : Forest → Nat
  | .nil => 0
  | .file _ rest => 1 + rest.count
  | .dir _ _ children rest => 1 + children.count + rest.count

/-- The objects that are not strictly below an unreadable directory. -/
def Forest.reachable : Forest → List DirEntry
  | .nil => []
  | .file m rest => m.entry false :: rest.reachable
  | .dir m readable children rest =>
    m.entry true :: ((if readable then children.reachable else []) ++ rest.reachable)

/-- The objects that are strictly below an unreadable directory. -/
def Forest.unreachable : Forest → List DirEntry
  | .nil => []
  | .file _ rest => rest.unreachable
  | .dir _ readable children rest =>
    (if readable then children.unreachable else children.objects) ++ rest.unreachable

/-- Every directory below this one is readable. -/
def Forest.allReadable : Forest → Bool
  | .nil => true
  | .file _ rest => rest.allReadable
  | .dir _ readable children rest => readable && children.allReadable && rest.allReadable

/-- The number of nested calls of `scanDirectory` a scan of the directory makes. -/
def Forest.height : Forest → Nat
  | .nil => 1
  | .file _ rest => rest.height
  | .dir _ _ children rest => max (children.height + 1) rest.height

/-- The subdirectories of the directory at `path` are what the operating system
shows below `path`: a readable one lists its children, an unreadable one fails. -/
def Forest.Below (os : OS) : String → Forest → Prop
  | _, .nil => True
  | path, .file _ rest => Forest.Below os path rest
  | path, .dir m readable children rest =>
    (if readable then
        os.readDir (os.join path m.name) = .ok children.entries ∧
          Forest.Below os (os.join path m.name) children
      else ∃ err, os.readDir (os.join path m.name) = .error err) ∧
    Forest.Below os path rest

/-- The directory at `path` is readable and its tree is `F`. -/
def Forest.Mounted (os : OS) (path : String) (F : Forest) : Prop :=
  os.readDir path = .ok F.entries ∧ Forest.Below os path F

/-! ## Sorting -/

/-- The comparator of line 103: `files[i].Name < files[j].Name`. -/
def lessName (a b : FileInfo) : Bool := decide (a.Name < b.Name)

/-- The comparator of line 107: `files[i].Size < files[j].Size`. -/
def lessSize (a b : FileInfo) : Bool := decide (a.Size < b.Size)

/-- The comparator of line 111: `files[i].Modification.Before(files[j].Modification)`. -/
def lessModification (a b : FileInfo) : Bool := decide (a.Modification < b.Modification)

/-- The comparator of line 115: `files[i].Permissions < files[j].Permissions`. -/
def lessPermissions (a b : FileInfo) : Bool := decide (a.Permissions < b.Permissions)

/-- The type of `sort.Slice` at `[]FileInfo`: the comparator and the slice. -/
abbrev Sorter := (FileInfo → FileInfo → Bool) → List FileInfo → List FileInfo

/-- The requirement of `sort.Interface` on `Less`: a transitive ordering, in which
being unordered both ways is transitive as well. -/
structure TransitiveOrdering (less : FileInfo → FileInfo → Bool) : Prop where
  irrefl : ∀ a, less a a = false
  trans : ∀ a b c, less a b = true → less b c = true → less a c = true
  incomp : ∀ a b c, less a b = false → less b c = false → less a c = false

/-- A slice is sorted for `less` when no later element must sort before an earlier one. -/
def SortedBy (less : FileInfo → FileInfo → Bool) (xs : List FileInfo) : Prop :=
  xs.Pairwise (fun a b => less b a = false)

/-- The documented contract of `sort.Slice`: the slice is rearranged (elements are
only swapped) and, for a transitive ordering, ends up sorted. Nothing is said about
the order of elements that compare equal. -/
structure SliceContract (sortSlice : Sorter) : Prop where
  perm : ∀ less xs, (sortSlice less xs).Perm xs
  sorted : ∀ less xs, TransitiveOrdering less → SortedBy less (sortSlice less xs)

/-- Lines 100-117: the switch on `sortBy`. -/
def sortFiles (sortSlice : Sorter) (sortBy : Int) (files : List FileInfo) : List FileInfo :=
  if sortBy = 1 then sortSlice lessName files
  else if sortBy = 2 then sortSlice lessSize files
  else if sortBy = 3 then sortSlice lessModification files
  else if sortBy = 4 then sortSlice lessPermissions files
  else files

/-- Two entries have equal sort keys: neither must sort before the other. -/
def tied (less : FileInfo → FileInfo → Bool) (a b : FileInfo) : Bool :=
  !less a b && !less b a

/-- The comparator the switch of lines 100-117 uses for a value of `sortBy`. -/
def comparatorOf (sortBy : Int) : Option (FileInfo → FileInfo → Bool) :=
  if sortBy = 1 then some lessName
  else if sortBy = 2 then some lessSize
  else if sortBy = 3 then some lessModification
  else if sortBy = 4 then some lessPermissions
  else none

/-! ### Two implementations of `sort.Slice` on short slices -/

/-- The inner loop of `insertionSort_func`: the element `x` moves towards the front
while it is less than its left neighbour. `sortedRev` is the part before `x`,
nearest element first. -/
def sinkLeft (less : FileInfo → FileInfo → Bool) (x : FileInfo) :
    List FileInfo → List FileInfo
  | [] => [x]
  | y :: ys => if less x y then y :: sinkLeft less x ys else x :: y :: ys

/-- The function `insertionSort_func` of the Go library, which `sort.Slice` of
Go 1.19 and later runs on slices of at most 12 elements. -/
def insertionSort : Sorter :=
  fun less xs => (xs.foldl (fun sortedRev x => sinkLeft less x sortedRev) []).reverse

/-- The statement `data.Swap(i, j)`. -/
def swapAt (xs : List FileInfo) (i j : Nat) : List FileInfo :=
  match xs.get? i, xs.get? j with
  | some a, some b => (xs.set i b).set j a
  | _, _ => xs

/-- The loop `for i := a + 6; i < b; i++ { if less(i, i-6) { swap(i, i-6) } }` of
`quickSort_func`, with `n` iterations left. -/
def gapPass (less : FileInfo → FileInfo → Bool) : Nat → Nat → List FileInfo → List FileInfo
  | 0, _, xs => xs
  | n + 1, i, xs =>
    match xs.get? i, xs.get? (i - 6) with
    | some a, some b => gapPass less n (i + 1) (if less a b then swapAt xs i (i - 6) else xs)
    | _, _ => gapPass less n (i + 1) xs

/-- What `quickSort_func` of the Go library does on a slice of at most 12 elements
(`sort.Slice` up to Go 1.18): one pass with gap 6, then insertion sort. -/
def gapInsertionSort : Sorter :=
  fun less xs => insertionSort less (gapPass less (xs.length - 6) 6 xs)

/-! ### `sort.Slice` of Go 1.19 and later: `pdqsort_func` -/

/-- The call `data.Less(i, j)`. -/
def lessAt (less : FileInfo → FileInfo → Bool) (data : List FileInfo) (i j : Nat) : Bool :=
  match data.get? i, data.get? j with
  | some a, some b => less a b
  | _, _ => false

/-- The call `insertionSort_func(data, a, b)`: insertion sort of `data[a:b]`. -/
def insertionSortRange (less : FileInfo → FileInfo → Bool) (data : List FileInfo)
    (a b : Nat) : List FileInfo :=
  data.take a ++ insertionSort less ((data.drop a).take (b - a)) ++ data.drop b

/-- The function `siftDown_func`, with `n` iterations of its loop left. -/
def siftDown (less : FileInfo → FileInfo → Bool) (hi first : Nat) :
    Nat → Nat → List FileInfo → List FileInfo
  | 0, _, data => data
  | n + 1, root, data =>
    let child := 2 * root + 1
    if child ≥ hi then data
    else
      let child :=
        if child + 1 < hi && lessAt less data (first + child) (first + child + 1) then child + 1
        else child
      if !lessAt less data (first + root) (first + child) then data
      else siftDown less hi first n child (swapAt data (first + root) (first + child))

/-- The first loop of `heapSort_func`: `siftDown` from `i` down to 0. -/
def heapBuild (less : FileInfo → FileInfo → Bool) (hi first : Nat) :
    Nat → List FileInfo → List FileInfo
  | 0, data => siftDown less hi first hi 0 data
  | i + 1, data => heapBuild less hi first i (siftDown less hi first hi (i + 1) data)

/-- The second loop of `heapSort_func`: the largest element goes to position `i`. -/
def heapPop (less : FileInfo → FileInfo → Bool) (first : Nat) :
    Nat → List FileInfo → List FileInfo
  | 0, data => data
  | i + 1, data =>
    heapPop less first i (siftDown less (i + 1) first (i + 1) 0 (swapAt data first (first + (i + 1))))

/-- The function `heapSort_func` on `data[a:b]`. -/
def heapSort (less : FileInfo → FileInfo → Bool) (data : List FileInfo) (a b : Nat) :
    List FileInfo :=
  let hi := b - a
  heapPop less a (hi - 1) (heapBuild less hi a ((hi - 1) / 2) data)

/-- The type `sortedHint`. -/
inductive SortedHint where
  | unknownHint
  | increasingHint
  | decreasingHint
  deriving DecidableEq, Repr

/-- The function `order2_func`: the two indices in order, and the swap counter. -/
def order2 (less : FileInfo → FileInfo → Bool) (data : List FileInfo) (a b swaps : Nat) :
    Nat × Nat × Nat :=
  if lessAt less data b a then (b, a, swaps + 1) else (a, b, swaps)

/-- The function `median_func`: the index of the median of three, and the swap counter. -/
def median (less : FileInfo → FileInfo → Bool) (data : List FileInfo) (a b c swaps : Nat) :
    Nat × Nat :=
  match order2 less data a b swaps with
  | (a, b, swaps) =>
    match order2 less data b c swaps with
    | (b, _, swaps) =>
      match order2 less data a b swaps with
      | (_, b, swaps) => (b, swaps)

/-- The function `medianAdjacent_func`. -/
def medianAdjacent (less : FileInfo → FileInfo → Bool) (data : List FileInfo) (a swaps : Nat) :
    Nat × Nat :=
  median less data (a - 1) a (a + 1) swaps

/-- The function `choosePivot_func` on `data[a:b]`. -/
def choosePivot (less : FileInfo → FileInfo → Bool) (data : List FileInfo) (a b : Nat) :
    Nat × SortedHint :=
  let l := b - a
  let i := a + l / 4 * 1
  let j := a + l / 4 * 2
  let k := a + l / 4 * 3
  let r : Nat × Nat :=
    if l ≥ 8 then
      if l ≥ 50 then
        match medianAdjacent less data i 0 with
        | (i, swaps) =>
          match medianAdjacent less data j swaps with
          | (j, swaps) =>
            match medianAdjacent less data k swaps with
            | (k, swaps) => median less data i j k swaps
      else median less data i j k 0
    else (j, 0)
  if r.2 = 0 then (r.1, .increasingHint)
  else if r.2 = 12 then (r.1, .decreasingHint)
  else (r.1, .unknownHint)

/-- The function `reverseRange_func`, with `n` iterations left. -/
def reverseRange : Nat → Nat → Nat → List FileInfo → List FileInfo
  | 0, _, _, data => data
  | n + 1, i, j, data => if i < j then reverseRange n (i + 1) (j - 1) (swapAt data i j) else data

/-- The loop `for i < b && !data.Less(i, i-1) { i++ }` of `partialInsertionSort_func`. -/
def skipOrdered (less : FileInfo → FileInfo → Bool) (data : List FileInfo) (b : Nat) :
    Nat → Nat → Nat
  | 0, i => i
  | n + 1, i => if i < b && !lessAt less data i (i - 1) then skipOrdered less data b n (i + 1) else i

/-- The loop `for j := i - 1; j >= 1; j--` of `partialInsertionSort_func`. -/
def shiftSmaller (less : FileInfo → FileInfo → Bool) : Nat → List FileInfo → List FileInfo
  | 0, data => data
  | j + 1, data =>
    if !lessAt less data (j + 1) j then data else shiftSmaller less j (swapAt data (j + 1) j)

/-- The loop `for j := i + 1; j < b; j++` of `partialInsertionSort_func`. -/
def shiftGreater (less : FileInfo → FileInfo → Bool) (b : Nat) :
    Nat → Nat → List FileInfo → List FileInfo
  | 0, _, data => data
  | n + 1, j, data =>
    if j < b then
      if !lessAt less data j (j - 1) then data
      else shiftGreater less b n (j + 1) (swapAt data j (j - 1))
    else data

/-- The function `partialInsertionSort_func` on `data[a:b]`, with `steps` iterations of
its outer loop left; the result says whether the slice is sorted. -/
def partialInsertionSort (less : FileInfo → FileInfo → Bool) (a b : Nat) :
    Nat → Nat → List FileInfo → List FileInfo × Bool
  | 0, _, data => (data, false)
  | steps + 1, i, data =>
    let i := skipOrdered less data b (b - i) i
    if i = b then (data, true)
    else if b - a < 50 then (data, false)
    else
      let data := swapAt data i (i - 1)
      let data := if i - a ≥ 2 then shiftSmaller less (i - 1) data else data
      let data := if b - i ≥ 2 then shiftGreater less b (b - (i + 1)) (i + 1) data else data
      partialInsertionSort less a b steps i data

/-- The loop `for i <= j && data.Less(i, a) { i++ }` of `partition_func`. -/
def partitionUp (less : FileInfo → FileInfo → Bool) (data : List FileInfo) (a j : Nat) :
    Nat → Nat → Nat
  | 0, i => i
  | n + 1, i => if i ≤ j && lessAt less data i a then partitionUp less data a j n (i + 1) else i

/-- The loop `for i <= j && !data.Less(j, a) { j-- }` of `partition_func`. -/
def partitionDown (less : FileInfo → FileInfo → Bool) (data : List FileInfo) (a i : Nat) :
    Nat → Nat → Nat
  | 0, j => j
  | n + 1, j =>
    if i ≤ j && !lessAt less data j a then partitionDown less data a i n (j - 1) else j

/-- The loop `for { ... }` of `partition_func`; returns the slice and `j`. -/
def partitionLoop (less : FileInfo → FileInfo → Bool) (a : Nat) :
    Nat → Nat → Nat → List FileInfo → List FileInfo × Nat
  | 0, _, j, data => (data, j)
  | n + 1, i, j, data =>
    let i := partitionUp less data a j (j + 1 - i) i
    let j := partitionDown less data a i (j + 1 - i) j
    if i > j then (data, j) else partitionLoop less a n (i + 1) (j - 1) (swapAt data i j)

/-- The function `partition_func`: the slice, the new index of the pivot and whether
the slice was already partitioned. -/
def partition (less : FileInfo → FileInfo → Bool) (data : List FileInfo) (a b pivot : Nat) :
    List FileInfo × Nat × Bool :=
  let data := swapAt data a pivot
  let i := partitionUp less data a (b - 1) (b - 1 - a) (a + 1)
  let j := partitionDown less data a i (b - 1 - a) (b - 1)
  if i > j then (swapAt data j a, j, true)
  else
    match partitionLoop less a (b - a) (i + 1) (j - 1) (swapAt data i j) with
    | (data, j) => (swapAt data j a, j, false)

/-- The loop `for i <= j && !data.Less(a, i) { i++ }` of `partitionEqual_func`. -/
def partitionEqualUp (less : FileInfo → FileInfo → Bool) (data : List FileInfo) (a j : Nat) :
    Nat → Nat → Nat
  | 0, i => i
  | n + 1, i =>
    if i ≤ j && !lessAt less data a i then partitionEqualUp less data a j n (i + 1) else i

/-- The loop `for i <= j && data.Less(a, j) { j-- }` of `partitionEqual_func`. -/
def partitionEqualDown (less : FileInfo → FileInfo → Bool) (data : List FileInfo) (a i : Nat) :
    Nat → Nat → Nat
  | 0, j => j
  | n + 1, j =>
    if i ≤ j && lessAt less data a j then partitionEqualDown less data a i n (j - 1) else j

/-- The loop `for { ... }` of `partitionEqual_func`; returns the slice and `i`. -/
def partitionEqualLoop (less : FileInfo → FileInfo → Bool) (a : Nat) :
    Nat → Nat → Nat → List FileInfo → List FileInfo × Nat
  | 0, i, _, data => (data, i)
  | n + 1, i, j, data =>
    let i := partitionEqualUp less data a j (j + 1 - i) i
    let j := partitionEqualDown less data a i (j + 1 - i) j
    if i > j then (data, i) else partitionEqualLoop less a n (i + 1) (j - 1) (swapAt data i j)

/-- The function `partitionEqual_func`. -/
def partitionEqual (less : FileInfo → FileInfo → Bool) (data : List FileInfo)
    (a b pivot : Nat) : List FileInfo × Nat :=
  partitionEqualLoop less a (b - a + 1) (a + 1) (b - 1) (swapAt data a pivot)

/-- The number of binary digits of `n`, computed in at most `fuel` halvings. -/
def bitsLenAux : Nat → Nat → Nat
  | 0, _ => 0
  | fuel + 1, n => if n = 0 then 0 else bitsLenAux fuel (n / 2) + 1

/-- The function `bits.Len`. -/
def bitsLen (n : Nat) : Nat := bitsLenAux n n

/-- The function `breakPatterns_func`; `next` is the step `xorshift.Next` of the
pseudo-random generator on its 64-bit state. -/
def breakPatterns (next : Nat → Nat) (data : List FileInfo) (a b : Nat) : List FileInfo :=
  let length := b - a
  if length ≥ 8 then
    let modulus := 2 ^ bitsLen length
    let idx := a + (length / 4) * 2 - 1
    let r1 := next length
    let r2 := next r1
    let r3 := next r2
    let other := fun r : Nat => if r % modulus ≥ length then r % modulus - length else r % modulus
    let data := swapAt data (idx - 1 + 0) (a + other r1)
    let data := swapAt data (idx - 1 + 1) (a + other r2)
    swapAt data (idx - 1 + 2) (a + other r3)
  else data

/-- The function `pdqsort_func` on `data[a:b]`; the first argument bounds the number of
nested iterations and calls. -/
def pdqsort (less : FileInfo → FileInfo → Bool) (next : Nat → Nat) :
    Nat → List FileInfo → Nat → Nat → Nat → Bool → Bool → List FileInfo
  | 0, data, _, _, _, _, _ => data
  | fuel + 1, data, a, b, limit, wasBalanced, wasPartitioned =>
    let length := b - a
    if length ≤ 12 then insertionSortRange less data a b
    else if limit = 0 then heapSort less data a b
    else
      let data := if !wasBalanced then breakPatterns next data a b else data
      let limit := if !wasBalanced then limit - 1 else limit
      let ph := choosePivot less data a b
      let data := if ph.2 = .decreasingHint then reverseRange (b - a) a (b - 1) data else data
      let pivot := if ph.2 = .decreasingHint then (b - 1) - (ph.1 - a) else ph.1
      let hint := if ph.2 = .decreasingHint then SortedHint.increasingHint else ph.2
      let tried : List FileInfo × Bool :=
        if wasBalanced && wasPartitioned && hint = .increasingHint then
          partialInsertionSort less a b 5 (a + 1) data
        else (data, false)
      if tried.2 then tried.1
      else
        let data := tried.1
        if a > 0 && !lessAt less data (a - 1) pivot then
          match partitionEqual less data a b pivot with
          | (data, mid) => pdqsort less next fuel data mid b limit wasBalanced wasPartitioned
        else
          match partition less data a b pivot with
          | (data, mid, alreadyPartitioned) =>
            let leftLen := mid - a
            let rightLen := b - mid
            let balanceThreshold := length / 8
            if leftLen < rightLen then
              pdqsort less next fuel (pdqsort less next fuel data a mid limit true true)
                (mid + 1) b limit (leftLen ≥ balanceThreshold) alreadyPartitioned
            else
              pdqsort less next fuel (pdqsort less next fuel data (mid + 1) b limit true true)
                a mid limit (rightLen ≥ balanceThreshold) alreadyPartitioned

/-- The function `sort.Slice` of Go 1.19 and later: `pdqsort_func(data, 0, length,
bits.Len(length))`. Every nested iteration or call works on a shorter part of the slice,
so the bound `length + 1` is never reached. -/
def pdqSlice (next : Nat → Nat) : Sorter :=
  fun less data =>
    pdqsort less next (data.length + 1) data 0 data.length (bitsLen data.length) true true

/-! ## The session loop -/

/-- The variables `currentPath`, `includeSubdirs` and `sortBy` of `main`. -/
structure Session where
  currentPath : String
  includeSubdirs : Bool
  sortBy : Int
  deriving DecidableEq, Repr

/-- What one pass through the menu switch does: the variables afterwards, the
lines printed, and whether `main` returns. -/
structure Step where
  state : Session
  printed : List String
  exits : Bool
  deriving DecidableEq, Repr

/-! ### The integer scan of `fmt.Scanln` -/

/-- The function `isSpace` of package `fmt`. -/
def isSpace (c : Char) : Bool :=
  let n := c.toNat
  (decide (0x09 ≤ n) && decide (n ≤ 0x0d)) || n == 0x20 || n == 0x85 || n == 0xa0 ||
    n == 0x1680 || (decide (0x2000 ≤ n) && decide (n ≤ 0x200a)) || n == 0x2028 ||
    n == 0x2029 || n == 0x202f || n == 0x205f || n == 0x3000

/-- The method `SkipSpace` of the scanner of `fmt.Scanln`: blanks are skipped, a newline
is an error (`none`). -/
def skipSpace : List Char → Option (List Char)
  | [] => some []
  | c :: rest =>
    if c.toNat = 13 ∧ rest.head? = some (Char.ofNat 10) then skipSpace rest
    else if c.toNat = 10 then none
    else if isSpace c then skipSpace rest
    else some (c :: rest)

/-- The value of a digit in `strconv.ParseUint`: `0`-`9`, then the letters. -/
def digitValue (c : Char) : Option Nat :=
  let n := c.toNat
  if 48 ≤ n ∧ n ≤ 57 then some (n - 48)
  else if 97 ≤ n ∧ n ≤ 122 then some (n - 97 + 10)
  else if 65 ≤ n ∧ n ≤ 90 then some (n - 65 + 10)
  else none

/-- The characters `scanNumber` accepts for a base: its digits and the underscore. -/
def acceptsDigit (base : Nat) (c : Char) : Bool :=
  c.toNat == 95 ||
    (match digitValue c with
     | some d => decide (d < base)
     | none => false)

/-- The character `c` is the letter with code `l`, in either case. -/
def lowerIs (c : Char) (l : Nat) : Bool := c.toNat == l || c.toNat + 32 == l

/-- The method that scans the base of the number (`0b`, `0o`, `0x` or a leading `0`):
the characters consumed, the base of the digits accepted
next, whether a digit was seen, and the input left. -/
def scanBase : List Char → List Char × Nat × Bool × List Char
  | c :: rest =>
    if c.toNat = 48 then
      match rest with
      | d :: rest2 =>
        if lowerIs d 98 then ([c, d], 2, true, rest2)
        else if lowerIs d 111 then ([c, d], 8, true, rest2)
        else if lowerIs d 120 then ([c, d], 16, true, rest2)
        else ([c], 8, true, rest)
      | [] => ([c], 8, true, [])
    else ([], 10, false, c :: rest)
  | [] => ([], 10, false, [])

/-- The token `scanInt` hands to `strconv.ParseInt`, and the input left. -/
def scanToken (input : List Char) : Option (List Char × List Char) :=
  match skipSpace input with
  | none => none
  | some [] => none
  | some (c :: rest) =>
    let sign : List Char := if c.toNat = 43 ∨ c.toNat = 45 then [c] else []
    let afterSign : List Char := if c.toNat = 43 ∨ c.toNat = 45 then rest else c :: rest
    match scanBase afterSign with
    | (pre, base, haveDigits, rest1) =>
      let digits := rest1.takeWhile (acceptsDigit base)
      let rest2 := rest1.dropWhile (acceptsDigit base)
      if !haveDigits && digits.isEmpty then none
      else some (sign ++ pre ++ digits, rest2)

/-- The loop of `underscoreOK` of package `strconv`: `prev` is the kind of the previous
character (0 none, 1 digit, 2 underscore, 3 other). -/
def underscoreScan (hex : Bool) : Nat → List Char → Bool
  | prev, [] => prev != 2
  | prev, c :: rest =>
    let n := c.toNat
    if (decide (48 ≤ n) && decide (n ≤ 57)) ||
        (hex && ((decide (97 ≤ n) && decide (n ≤ 102)) ||
          (decide (65 ≤ n) && decide (n ≤ 70)))) then
      underscoreScan hex 1 rest
    else if n = 95 then
      if prev != 1 then false else underscoreScan hex 2 rest
    else if prev == 2 then false
    else underscoreScan hex 3 rest

/-- The function `underscoreOK` of package `strconv`. -/
def underscoreOK (s : List Char) : Bool :=
  let s := match s with
    | c :: rest => if c.toNat = 43 ∨ c.toNat = 45 then rest else s
    | [] => s
  match s with
  | c :: d :: rest =>
    if c.toNat = 48 ∧ (lowerIs d 98 || lowerIs d 111 || lowerIs d 120) then
      underscoreScan (lowerIs d 120) 1 rest
    else underscoreScan false 0 s
  | _ => underscoreScan false 0 s

/-- The loop of `strconv.ParseUint`: the value of the digits, `none` on a syntax error. -/
def parseDigits (base : Nat) : Nat → List Char → Option Nat
  | n, [] => some n
  | n, c :: rest =>
    if c.toNat = 95 then parseDigits base n rest
    else
      match digitValue c with
      | none => none
      | some d => if d ≥ base then none else parseDigits base (n * base + d) rest

/-- The call `strconv.ParseUint(s, 0, 64)`. -/
def parseUint (s : List Char) : Option Nat :=
  match s with
  | [] => none
  | c :: rest =>
    let r : Option Nat :=
      if c.toNat = 48 then
        match rest with
        | d :: e :: rest2 =>
          if lowerIs d 98 then parseDigits 2 0 (e :: rest2)
          else if lowerIs d 111 then parseDigits 8 0 (e :: rest2)
          else if lowerIs d 120 then parseDigits 16 0 (e :: rest2)
          else parseDigits 8 0 rest
        | _ => parseDigits 8 0 rest
      else parseDigits 10 0 s
    match r with
    | none => none
    | some n =>
      if s.any (fun c => c.toNat == 95) && !underscoreOK s then none
      else if n ≥ 2 ^ 64 then none
      else some n

/-- The call `strconv.ParseInt(s, 0, 64)`. -/
def parseInt (s : List Char) : Option Int :=
  match s with
  | [] => none
  | c :: rest =>
    let neg := decide (c.toNat = 45)
    let body := if c.toNat = 43 ∨ c.toNat = 45 then rest else s
    match parseUint body with
    | none => none
    | some un =>
      if !neg && decide (un ≥ 2 ^ 63) then none
      else if neg && decide (un > 2 ^ 63) then none
      else some (if neg then - (un : Int) else (un : Int))

/-- The method `scanInt` for the verb `%v` on a 64-bit `int`: the integer read and the
input left, `none` when the scan fails before anything is stored. -/
def scanInt (input : List Char) : Option (Int × List Char) :=
  match scanToken input with
  | none => none
  | some (tok, rest) =>
    match parseInt tok with
    | none => none
    | some v => some (v, rest)

/-- The check of `fmt.Scanln` after the last operand: only blanks up to the newline or
the end of the input. -/
def lineEnds : List Char → Bool
  | [] => true
  | c :: rest => if c.toNat = 10 then true else if isSpace c then lineEnds rest else false

/-- Lines 138-140: `choice` is a fresh variable with value 0, and `fmt.Scanln(&choice)`,
run on the characters `input` waiting on standard input, stores the integer it reads
as soon as it has read it. The error it returns is not looked at. -/
def scanChoice (input : String) : Int :=
  match scanInt input.toList with
  | some (v, _) => v
  | none => 0

/-- The call `fmt.Scanln(&choice)` returns an error: the input is not an integer
followed by the end of the line. -/
def scanlnFails (input : String) : Bool :=
  match scanInt input.toList with
  | none => true
  | some (_, rest) => !lineEnds rest

/-- Lines 142-162: the switch on `choice`; `dirName` is what line 146 reads. -/
def menu (os : OS) (s : Session) (choice : Int) (dirName : String) : Step :=
  if choice = 1 then
    let newPath := os.join s.currentPath dirName
    match os.stat newPath with
    | .error err => { state := s, printed := ["Error: " ++ err], exits := false }
    | .ok _ => { state := { s with currentPath := newPath }, printed := [], exits := false }
  else if choice = 2 then
    { state := { s with includeSubdirs := !s.includeSubdirs }, printed := [], exits := false }
  else if choice = 3 ∨ choice = 4 ∨ choice = 5 ∨ choice = 6 then
    { state := { s with sortBy := choice }, printed := [], exits := false }
  else if choice = 7 then
    { state := s, printed := [], exits := true }
  else
    { state := s, printed := ["Invalid choice. Please try again."], exits := false }

/-- Lines 88-117: the list the loop displays, `none` in the slice position when
`main` returns before displaying (scan error or no entries). The outer `none`
means the scan has not returned within the bound. -/
def listing (os : OS) (sortSlice : Sorter) (sched : String → List Nat) (fuel : Nat)
    (s : Session) : Option (Option (List FileInfo)) :=
  match scanDirectory os sched fuel s.currentPath s.includeSubdirs with
  | none => none
  | some (_, some _) => some none
  | some (files, none) =>
    if files.length = 0 then some none
    else some (some (sortFiles sortSlice s.sortBy files))

/-- One iteration of the loop of `main` (lines 85-163): the list displayed (if the
loop gets that far) and what the iteration does to the variables. -/
def loopBody (os : OS) (sortSlice : Sorter) (sched : String → List Nat) (fuel : Nat)
    (s : Session) (input : String) (dirName : String) :
    Option (Option (List FileInfo) × Step) :=
  match scanDirectory os sched fuel s.currentPath s.includeSubdirs with
  | none => none
  | some (_, some err) =>
    some (none, { state := s, printed := ["Error: " ++ err], exits := true })
  | some (files, none) =>
    if files.length = 0 then
      some (none,
        { state := s, printed := ["No files found in the specified directory."], exits := true })
    else some (some (sortFiles sortSlice s.sortBy files), menu os s (scanChoice input) dirName)

/-- The slice is in non-decreasing order of `Name`. -/
def OrderedByName (xs : List FileInfo) : Prop := xs.Pairwise (fun a b => a.Name ≤ b.Name)

/-- The slice is in non-decreasing order of `Size`. -/
def OrderedBySize (xs : List FileInfo) : Prop := xs.Pairwise (fun a b => a.Size ≤ b.Size)

/-- The slice is in non-decreasing order of `Modification`. -/
def OrderedByModification (xs : List FileInfo) : Prop :=
  xs.Pairwise (fun a b => a.Modification ≤ b.Modification)

/-- The slice is in non-decreasing order of `Permissions`. -/
def OrderedByPermissions (xs : List FileInfo) : Prop :=
  xs.Pairwise (fun a b => a.Permissions ≤ b.Permissions)

/-! ## Auxiliary notions for the statements -/

/-- Everything the goroutines still have to append, in spawn order. -/
def outstanding (units : List Pending) : List FileInfo := (units.map List.flatten).flatten

/-- The record `f` of the result stands for the filesystem object `e`: it has its name,
its kind, its permission bits, its modification time and, for a non-directory, its
size in bytes. -/
def Describes (f : FileInfo) (e : DirEntry) : Prop :=
  f.Name = e.name ∧ f.IsDir = e.isDir ∧ (e.isDir = false → f.Size = e.size) ∧
    f.Permissions = e.mode &&& 0o777 ∧ f.Modification = e.modTime

/-- Two results of `scanDirectory` agree up to the order of the slice. -/
def SameEntries (r1 r2 : ScanResult) : Prop := r1.2 = r2.2 ∧ r1.1.Perm r2.1

/-- The entries whose keys are equal keep their relative order: for every entry `x`,
the entries tied with `x` are the same sequence before and after the switch of lines
100-117. -/
def KeepsTieOrder (sortSlice : Sorter) (sortBy : Int) (files : List FileInfo) : Prop :=
  ∀ less, comparatorOf sortBy = some less →
    ∀ x, (sortFiles sortSlice sortBy files).filter (tied less x) = files.filter (tied less x)

/-! ## A small filesystem and a slice for the examples -/

/-- The mode of a directory with permissions `rwxr-xr-x`: `ModeDir | 0o755`. -/
def dirMode : Nat := 0o20000000755

/-- A filesystem with four directories to scan:
`/r` holds `a/x` and `b/x`; `/s` holds `locked/secret`, `note` and `open/y`, and
`locked` cannot be read; `/t` holds the files `a` (newer) and `b` (older). -/
def demoOS : OS where
  readDir p :=
    if p = "/r" then .ok [⟨"a", 4096, dirMode, 10, true⟩, ⟨"b", 4096, dirMode, 20, true⟩]
    else if p = "/r/a" then .ok [⟨"x", 1, 0o644, 30, false⟩]
    else if p = "/r/b" then .ok [⟨"x", 2, 0o644, 40, false⟩]
    else if p = "/s" then
      .ok [⟨"locked", 4096, dirMode, 50, true⟩, ⟨"note", 7, 0o600, 60, false⟩,
        ⟨"open", 4096, dirMode, 70, true⟩]
    else if p = "/s/locked" then .error "open /s/locked: permission denied"
    else if p = "/s/open" then .ok [⟨"y", 3, 0o644, 80, false⟩]
    else if p = "/t" then .ok [⟨"a", 5, 0o644, 2, false⟩, ⟨"b", 5, 0o644, 1, false⟩]
    else .error ("open " ++ p ++ ": no such file or directory")
  join p n := p ++ "/" ++ n
  stat p :=
    if p = "/r/a" then .ok ⟨"a", 4096, dirMode, 10, true⟩
    else if p = "/t/a" then .ok ⟨"a", 5, 0o644, 2, false⟩
    else .error ("stat " ++ p ++ ": no such file or directory")

/-- The tree below `/r`. -/
def treeR : Forest :=
  .dir ⟨"a", 4096, dirMode, 10⟩ true (.file ⟨"x", 1, 0o644, 30⟩ .nil)
    (.dir ⟨"b", 4096, dirMode, 20⟩ true (.file ⟨"x", 2, 0o644, 40⟩ .nil) .nil)

/-- The tree below `/s`; the directory `locked` is unreadable. -/
def treeS : Forest :=
  .dir ⟨"locked", 4096, dirMode, 50⟩ false (.file ⟨"secret", 9, 0o600, 55⟩ .nil)
    (.file ⟨"note", 7, 0o600, 60⟩
      (.dir ⟨"open", 4096, dirMode, 70⟩ true (.file ⟨"y", 3, 0o644, 80⟩ .nil) .nil))

/-- Every goroutine runs as soon as it is spawned: the mutex is always taken by the
first goroutine that still has something to append. -/
def spawnOrder : String → List Nat := fun _ => []

/-- In the scan of `/r` the goroutine of the second entry runs first. -/
def secondFirst : String → List Nat := fun p => if p = "/r" then [1, 1] else []

/-- The scan of `/r` with recursion when the goroutine of `a` runs first. -/
def scanAB : List FileInfo :=
  [⟨"a", 0, true, 0o755, 10⟩, ⟨"x", 1, false, 0o644, 30⟩,
   ⟨"b", 0, true, 0o755, 20⟩, ⟨"x", 2, false, 0o644, 40⟩]

/-- The scan of `/r` with recursion when the goroutine of `b` runs first. -/
def scanBA : List FileInfo :=
  [⟨"b", 0, true, 0o755, 20⟩, ⟨"x", 2, false, 0o644, 40⟩,
   ⟨"a", 0, true, 0o755, 10⟩, ⟨"x", 1, false, 0o644, 30⟩]

/-- Seven entries in scan order; the first is the newest, the others have the same
modification time. -/
def sevenFiles : List FileInfo :=
  [⟨"a", 0, false, 0o644, 2⟩, ⟨"b", 0, false, 0o644, 1⟩, ⟨"c", 0, false, 0o644, 1⟩,
   ⟨"d", 0, false, 0o644, 1⟩, ⟨"e", 0, false, 0o644, 1⟩, ⟨"f", 0, false, 0o644, 1⟩,
   ⟨"g", 0, false, 0o644, 1⟩]

/-- Thirteen entries in scan order; the last is the oldest, the others have the same
modification time. -/
def thirteenFiles : List FileInfo :=
  [⟨"a", 0, false, 0o644, 1⟩, ⟨"b", 0, false, 0o644, 1⟩, ⟨"c", 0, false, 0o644, 1⟩,
   ⟨"d", 0, false, 0o644, 1⟩, ⟨"e", 0, false, 0o644, 1⟩, ⟨"f", 0, false, 0o644, 1⟩,
   ⟨"g", 0, false, 0o644, 1⟩, ⟨"h", 0, false, 0o644, 1⟩, ⟨"i", 0, false, 0o644, 1⟩,
   ⟨"j", 0, false, 0o644, 1⟩, ⟨"k", 0, false, 0o644, 1⟩, ⟨"l", 0, false, 0o644, 1⟩,
   ⟨"m", 0, false, 0o644, 0⟩]

/-- The entries of `thirteenFiles` after `partition_func` with the pivot `g`: `m` is in
front, and `g`, `a` and `b` have changed places. -/
def thirteenMoved : List FileInfo :=
  [⟨"m", 0, false, 0o644, 0⟩, ⟨"g", 0, false, 0o644, 1⟩, ⟨"c", 0, false, 0o644, 1⟩,
   ⟨"d", 0, false, 0o644, 1⟩, ⟨"e", 0, false, 0o644, 1⟩, ⟨"f", 0, false, 0o644, 1⟩,
   ⟨"a", 0, false, 0o644, 1⟩, ⟨"h", 0, false, 0o644, 1⟩, ⟨"i", 0, false, 0o644, 1⟩,
   ⟨"j", 0, false, 0o644, 1⟩, ⟨"k", 0, false, 0o644, 1⟩, ⟨"l", 0, false, 0o644, 1⟩,
   ⟨"b", 0, false, 0o644, 1⟩]

/-! ## The scheduler: every schedule appends every block once -/

theorem outstanding_nil : outstanding [] = [] := rfl

theorem outstanding_cons (u : Pending) (us : List Pending) :
    outstanding (u :: us) = u.flatten ++ outstanding us := by
  simp [outstanding]

theorem blocks_cons (u : Pending) (us : List Pending) :
    blocks (u :: us) = u.length + blocks us := by
  simp [blocks]

theorem takeLock_some (k : Nat) (units : List Pending) (b : List FileInfo)
    (units' : List Pending) (h : takeLock k units = some (b, units')) :
    (outstanding units).Perm (b ++ outstanding units') ∧ blocks units = blocks units' + 1 := by
  induction units generalizing k b units' with
  | nil => simp [takeLock] at h
  | cons u us ih =>
    cases u with
    | nil =>
      rw [takeLock] at h
      cases hk : takeLock k us with
      | none => simp [hk] at h
      | some r =>
        obtain ⟨b0, us0⟩ := r
        simp only [hk, Option.some.injEq, Prod.mk.injEq] at h
        obtain ⟨rfl, rfl⟩ := h
        have := ih k b0 us0 hk
        simpa [outstanding_cons, blocks_cons] using this
    | cons b1 bs =>
      cases k with
      | zero =>
        simp only [takeLock, Option.some.injEq, Prod.mk.injEq] at h
        obtain ⟨rfl, rfl⟩ := h
        refine ⟨by simp [outstanding_cons], by simp only [blocks_cons, List.length_cons]; omega⟩
      | succ k =>
        rw [takeLock] at h
        cases hk : takeLock k us with
        | none =>
          simp only [hk, Option.some.injEq, Prod.mk.injEq] at h
          obtain ⟨rfl, rfl⟩ := h
          refine ⟨by simp [outstanding_cons], by simp only [blocks_cons, List.length_cons]; omega⟩
        | some r =>
          obtain ⟨b0, us0⟩ := r
          simp only [hk, Option.some.injEq, Prod.mk.injEq] at h
          obtain ⟨rfl, rfl⟩ := h
          obtain ⟨hp, hb⟩ := ih k b0 us0 hk
          refine ⟨?_, ?_⟩
          · simp only [outstanding_cons]
            refine (List.Perm.append_left _ hp).trans ?_
            rw [← List.append_assoc, ← List.append_assoc]
            exact List.Perm.append_right _ List.perm_append_comm
          · simp only [blocks_cons]; omega

theorem takeLock_none (k : Nat) (units : List Pending) (h : takeLock k units = none) :
    outstanding units = [] := by
  induction units generalizing k with
  | nil => rfl
  | cons u us ih =>
    cases u with
    | nil =>
      rw [takeLock] at h
      cases hk : takeLock k us with
      | none => simpa [outstanding_cons] using ih k hk
      | some r => simp [hk] at h
    | cons b1 bs =>
      cases k with
      | zero => simp [takeLock] at h
      | succ k =>
        rw [takeLock] at h
        cases hk : takeLock k us <;> simp [hk] at h

theorem interleave_perm (n : Nat) (sched : List Nat) (units : List Pending)
    (files : List FileInfo) (h : blocks units ≤ n) :
    (interleave n sched units files).Perm (files ++ outstanding units) := by
  induction n generalizing sched units files with
  | zero =>
    cases hk : takeLock 0 units with
    | none => simp [interleave, takeLock_none 0 units hk]
    | some r =>
      obtain ⟨b, us⟩ := r
      have := (takeLock_some 0 units b us hk).2
      omega
  | succ n ih =>
    rw [interleave]
    cases hk : takeLock (sched.headD 0) units with
    | none => simp [takeLock_none _ units hk]
    | some r =>
      obtain ⟨b, us⟩ := r
      obtain ⟨hp, hb⟩ := takeLock_some _ units b us hk
      have h1 := ih sched.tail us (files ++ b) (by omega)
      refine h1.trans ?_
      rw [List.append_assoc]
      exact List.Perm.append_left _ hp.symm

/-- Whatever the schedule, `wg.Wait()` returns with every block appended once. -/
theorem waitGroup_perm (sched : List Nat) (units : List Pending) :
    (waitGroup sched units).Perm (outstanding units) := by
  simpa [waitGroup] using interleave_perm (blocks units) sched units [] (Nat.le_refl _)

/-! ## The schedules describe exactly the interleavings of the appends -/

theorem blocks_append (us vs : List Pending) : blocks (us ++ vs) = blocks us + blocks vs := by
  simp [blocks]

theorem takeLock_of_blocks_zero (k : Nat) (units : List Pending) (h : blocks units = 0) :
    takeLock k units = none := by
  induction units generalizing k with
  | nil => simp [takeLock]
  | cons u us ih =>
    rw [blocks_cons] at h
    cases u with
    | nil => simp [takeLock, ih k (by simpa using h)]
    | cons b bs => simp at h

theorem blocks_zero_of_takeLock (k : Nat) (units : List Pending)
    (h : takeLock k units = none) : blocks units = 0 := by
  induction units generalizing k with
  | nil => rfl
  | cons u us ih =>
    cases u with
    | nil =>
      rw [takeLock] at h
      cases hk : takeLock k us with
      | none => simpa [blocks_cons] using ih k hk
      | some r => simp [hk] at h
    | cons b1 bs =>
      cases k with
      | zero => simp [takeLock] at h
      | succ k =>
        rw [takeLock] at h
        cases hk : takeLock k us <;> simp [hk] at h

theorem takeLock_runnable (before after : List Pending) (b : List FileInfo) (bs : Pending) :
    takeLock (runnable before) (before ++ (b :: bs) :: after)
      = some (b, before ++ bs :: after) := by
  induction before with
  | nil => simp [runnable, takeLock]
  | cons u us ih =>
    cases u with
    | nil => simp [runnable, takeLock, ih]
    | cons c cs => simp [runnable, takeLock, ih]

theorem takeLock_split (k : Nat) (units : List Pending) (b : List FileInfo)
    (units1 : List Pending) (h : takeLock k units = some (b, units1)) :
    ∃ before bs after, units = before ++ (b :: bs) :: after ∧
      units1 = before ++ bs :: after := by
  induction units generalizing k b units1 with
  | nil => simp [takeLock] at h
  | cons u us ih =>
    cases u with
    | nil =>
      rw [takeLock] at h
      cases hk : takeLock k us with
      | none => simp [hk] at h
      | some r =>
        obtain ⟨b0, us0⟩ := r
        simp only [hk, Option.some.injEq, Prod.mk.injEq] at h
        obtain ⟨rfl, rfl⟩ := h
        obtain ⟨before, bs, after, h1, h2⟩ := ih k b0 us0 hk
        exact ⟨[] :: before, bs, after, by simp [h1], by simp [h2]⟩
    | cons b1 bs1 =>
      cases k with
      | zero =>
        simp only [takeLock, Option.some.injEq, Prod.mk.injEq] at h
        obtain ⟨rfl, rfl⟩ := h
        exact ⟨[], bs1, us, rfl, rfl⟩
      | succ k =>
        rw [takeLock] at h
        cases hk : takeLock k us with
        | none =>
          simp only [hk, Option.some.injEq, Prod.mk.injEq] at h
          obtain ⟨rfl, rfl⟩ := h
          exact ⟨[], bs1, us, rfl, rfl⟩
        | some r =>
          obtain ⟨b0, us0⟩ := r
          simp only [hk, Option.some.injEq, Prod.mk.injEq] at h
          obtain ⟨rfl, rfl⟩ := h
          obtain ⟨before, bs, after, h1, h2⟩ := ih k b0 us0 hk
          exact ⟨(b1 :: bs1) :: before, bs, after, by simp [h1], by simp [h2]⟩

theorem interleave_of_interleaving (units : List Pending) (files : List FileInfo)
    (h : Interleaving units files) :
    ∀ (n : Nat) (acc : List FileInfo), blocks units ≤ n →
      ∃ sched, interleave n sched units acc = acc ++ files := by
  induction h with
  | done units h0 =>
    intro n acc _
    refine ⟨[], ?_⟩
    cases n with
    | zero => simp [interleave]
    | succ n => simp [interleave, takeLock_of_blocks_zero _ units h0]
  | step before after b bs rest _ ih =>
    intro n acc hn
    have hb : blocks (before ++ (b :: bs) :: after) = blocks (before ++ bs :: after) + 1 := by
      simp only [blocks_append, blocks_cons, List.length_cons]; omega
    obtain ⟨m, rfl⟩ : ∃ m, n = m + 1 := ⟨n - 1, by omega⟩
    obtain ⟨sched, hs⟩ := ih m (acc ++ b) (by omega)
    refine ⟨runnable before :: sched, ?_⟩
    rw [interleave]
    simp only [List.headD_cons, List.tail_cons, takeLock_runnable, hs, List.append_assoc]

theorem interleaving_of_interleave (n : Nat) :
    ∀ (sched : List Nat) (units : List Pending) (acc : List FileInfo), blocks units ≤ n →
      ∃ files, interleave n sched units acc = acc ++ files ∧ Interleaving units files := by
  induction n with
  | zero =>
    intro sched units acc hn
    exact ⟨[], by simp [interleave], Interleaving.done units (by omega)⟩
  | succ n ih =>
    intro sched units acc hn
    rw [interleave]
    cases hk : takeLock (sched.headD 0) units with
    | none =>
      exact ⟨[], by simp, Interleaving.done units (blocks_zero_of_takeLock _ units hk)⟩
    | some r =>
      obtain ⟨b, units1⟩ := r
      obtain ⟨before, bs, after, rfl, rfl⟩ := takeLock_split _ units b units1 hk
      have hb : blocks (before ++ (b :: bs) :: after) = blocks (before ++ bs :: after) + 1 := by
        simp only [blocks_append, blocks_cons, List.length_cons]; omega
      obtain ⟨files, hf, hi⟩ := ih sched.tail (before ++ bs :: after) (acc ++ b) (by omega)
      exact ⟨b ++ files, by simp [hf], Interleaving.step before after b bs files hi⟩

/-- The slices `wg.Wait()` returns over all schedules are exactly the interleavings of
the appends of the goroutines. -/
theorem waitGroup_iff_interleaving (units : List Pending) (files : List FileInfo) :
    (∃ sched, waitGroup sched units = files) ↔ Interleaving units files := by
  constructor
  · rintro ⟨sched, rfl⟩
    obtain ⟨files, hf, hi⟩ :=
      interleaving_of_interleave (blocks units) sched units [] (Nat.le_refl _)
    unfold waitGroup
    rw [hf]
    simpa using hi
  · intro h
    obtain ⟨sched, hs⟩ := interleave_of_interleaving units files h (blocks units) []
      (Nat.le_refl _)
    exact ⟨sched, by simpa [waitGroup] using hs⟩

/-! ## `scanDirectory` without recursion -/

theorem spawn_flat (os : OS) (scan : String → Option ScanResult) (path : String)
    (entries : List DirEntry) :
    ∃ units, spawn os scan path false entries = some units ∧
      outstanding units = entries.map fileInfoOf := by
  induction entries with
  | nil => exact ⟨[], rfl, rfl⟩
  | cons e rest ih =>
    obtain ⟨us, hs, ho⟩ := ih
    refine ⟨[[fileInfoOf e]] :: us, ?_, ?_⟩
    · simp [spawn, goroutine, hs]
    · simp [outstanding_cons, ho]

theorem scanDirectory_ok (os : OS) (sched : String → List Nat) (fuel : Nat) (path : String)
    (includeSubdirs : Bool) (entries : List DirEntry) (units : List Pending)
    (h : os.readDir path = .ok entries)
    (hs : spawn os (fun p => scanDirectory os sched fuel p true) path includeSubdirs entries
      = some units) :
    scanDirectory os sched (fuel + 1) path includeSubdirs
      = some (waitGroup (sched path) units, none) := by
  simp [scanDirectory, h, hs]

theorem scanDirectory_error (os : OS) (sched : String → List Nat) (fuel : Nat) (path : String)
    (includeSubdirs : Bool) (err : String) (h : os.readDir path = .error err) :
    scanDirectory os sched (fuel + 1) path includeSubdirs = some ([], some err) := by
  simp [scanDirectory, h]

/-! ## `scanDirectory` on a directory tree -/

theorem Forest.one_le_height (F : Forest) : 1 ≤ F.height := by
  induction F with
  | nil => simp [Forest.height]
  | file m rest ih => simpa [Forest.height] using ih
  | dir m readable children rest ih1 ih2 => simp [Forest.height]

theorem spawn_tree (os : OS) (sched : String → List Nat) (F : Forest) :
    ∀ (path : String) (fuel : Nat), F.Below os path → F.height ≤ fuel + 1 →
      ∃ units, spawn os (fun p => scanDirectory os sched fuel p true) path true F.entries
          = some units ∧
        (outstanding units).Perm (F.reachable.map fileInfoOf) := by
  induction F with
  | nil => intro path fuel _ _; exact ⟨[], rfl, List.Perm.refl _⟩
  | file m rest ih =>
    intro path fuel hb hh
    obtain ⟨us, hs, hp⟩ := ih path fuel hb hh
    refine ⟨[[fileInfoOf (m.entry false)]] :: us, ?_, ?_⟩
    · simp [Forest.entries, spawn, goroutine, hs, Stat.entry]
    · simpa [outstanding_cons, Forest.reachable] using hp
  | dir m readable children rest ihc ihr =>
    intro path fuel hb hh
    obtain ⟨hdir, hrest⟩ := hb
    have hh1 : children.height + 1 ≤ fuel + 1 := le_trans (le_max_left _ _) hh
    have hh2 : rest.height ≤ fuel + 1 := le_trans (le_max_right _ _) hh
    obtain ⟨us, hs, hp⟩ := ihr path fuel hrest hh2
    have h1 := children.one_le_height
    obtain ⟨f, rfl⟩ : ∃ f, fuel = f + 1 := ⟨fuel - 1, by omega⟩
    cases readable with
    | true =>
      simp only [if_true] at hdir
      obtain ⟨hread, hbelow⟩ := hdir
      obtain ⟨cs, hcs, hcp⟩ := ihc (os.join path m.name) f hbelow (by omega)
      have hscan := scanDirectory_ok os sched f (os.join path m.name) true _ cs hread hcs
      refine ⟨[[fileInfoOf (m.entry true)], waitGroup (sched (os.join path m.name)) cs] :: us,
        ?_, ?_⟩
      · have hname : (m.entry true).name = m.name := rfl
        have hisdir : (m.entry true).isDir = true := rfl
        simp only [Forest.entries, spawn, goroutine, hname, hisdir, Bool.and_self, if_true,
          hscan, hs]
      · simp only [outstanding_cons, Forest.reachable, if_true, List.map_cons, List.map_append,
          List.flatten_cons, List.flatten_nil, List.append_nil, List.singleton_append,
          List.cons_append]
        exact List.Perm.cons _ (List.Perm.append ((waitGroup_perm _ cs).trans hcp) hp)
    | false =>
      simp only [Bool.false_eq_true, if_false] at hdir
      obtain ⟨err, hread⟩ := hdir
      have hscan := scanDirectory_error os sched f (os.join path m.name) true err hread
      refine ⟨[[fileInfoOf (m.entry true)]] :: us, ?_, ?_⟩
      · have hname : (m.entry true).name = m.name := rfl
        have hisdir : (m.entry true).isDir = true := rfl
        simp only [Forest.entries, spawn, goroutine, hname, hisdir, Bool.and_self, if_true,
          hscan, hs]
      · simp only [outstanding_cons, Forest.reachable, Bool.false_eq_true, if_false,
          List.map_cons, List.nil_append, List.flatten_cons, List.flatten_nil, List.append_nil,
          List.singleton_append]
        exact List.Perm.cons _ hp

theorem scan_tree (os : OS) (sched : String → List Nat) (path : String) (F : Forest)
    (hF : F.Mounted os path) (fuel : Nat) (hfuel : F.height ≤ fuel) :
    ∃ files, scanDirectory os sched fuel path true = some (files, none) ∧
      files.Perm (F.reachable.map fileInfoOf) := by
  have h1 := F.one_le_height
  obtain ⟨f, rfl⟩ : ∃ f, fuel = f + 1 := ⟨fuel - 1, by omega⟩
  obtain ⟨units, hs, hp⟩ := spawn_tree os sched F path f hF.2 hfuel
  exact ⟨_, scanDirectory_ok os sched f path true _ units hF.1 hs, (waitGroup_perm _ units).trans hp⟩

theorem Forest.length_objects (F : Forest) : F.objects.length = F.count := by
  induction F with
  | nil => rfl
  | file m rest ih => simp [Forest.objects, Forest.count, ih, Nat.add_comm]
  | dir m readable children rest ih1 ih2 =>
    simp [Forest.objects, Forest.count, ih1, ih2]; omega

theorem Forest.reachable_of_allReadable (F : Forest) (h : F.allReadable = true) :
    F.reachable = F.objects := by
  induction F with
  | nil => rfl
  | file m rest ih => simp [Forest.reachable, Forest.objects, ih (by simpa [Forest.allReadable] using h)]
  | dir m readable children rest ih1 ih2 =>
    simp only [Forest.allReadable, Bool.and_eq_true] at h
    obtain ⟨⟨hr, hc⟩, hrest⟩ := h
    simp [Forest.reachable, Forest.objects, ih1 hc, ih2 hrest, hr]

theorem Forest.objects_perm (F : Forest) :
    (F.reachable ++ F.unreachable).Perm F.objects := by
  induction F with
  | nil => exact List.Perm.refl _
  | file m rest ih => simpa [Forest.reachable, Forest.unreachable, Forest.objects] using ih
  | dir m readable children rest ih1 ih2 =>
    cases readable with
    | true =>
      simp only [Forest.reachable, Forest.unreachable, Forest.objects, if_true, List.cons_append]
      refine List.Perm.cons _ ?_
      have h := List.Perm.append ih1 ih2
      refine List.Perm.trans ?_ h
      simp only [List.append_assoc]
      refine List.Perm.append_left _ ?_
      rw [← List.append_assoc, ← List.append_assoc]
      exact List.Perm.append_right _ List.perm_append_comm
    | false =>
      simp only [Forest.reachable, Forest.unreachable, Forest.objects, Bool.false_eq_true,
        if_false, List.nil_append, List.cons_append]
      refine List.Perm.cons _ ?_
      rw [← List.append_assoc]
      refine List.Perm.trans (List.Perm.append_right _ List.perm_append_comm) ?_
      rw [List.append_assoc]
      exact List.Perm.append_left _ ih2

/-! ## Two scans of the same tree -/

theorem goroutine_sameEntries (os : OS) (scan1 scan2 : String → Option ScanResult)
    (H : ∀ p r1 r2, scan1 p = some r1 → scan2 p = some r2 → SameEntries r1 r2)
    (path : String) (includeSubdirs : Bool) (e : DirEntry) (g1 g2 : Pending)
    (h1 : goroutine os scan1 path includeSubdirs e = some g1)
    (h2 : goroutine os scan2 path includeSubdirs e = some g2) :
    g1.flatten.Perm g2.flatten := by
  unfold goroutine at h1 h2
  by_cases hc : (e.isDir && includeSubdirs) = true
  · simp only [hc, if_true] at h1 h2
    cases hs1 : scan1 (os.join path e.name) with
    | none => simp [hs1] at h1
    | some r1 =>
      cases hs2 : scan2 (os.join path e.name) with
      | none => simp [hs2] at h2
      | some r2 =>
        obtain ⟨herr, hperm⟩ := H _ r1 r2 hs1 hs2
        obtain ⟨l1, e1⟩ := r1
        obtain ⟨l2, e2⟩ := r2
        simp only at herr hperm
        subst herr
        cases e1 with
        | none =>
          simp only [hs1, hs2, Option.some.injEq] at h1 h2
          subst h1 h2
          simpa using hperm
        | some err =>
          simp only [hs1, hs2, Option.some.injEq] at h1 h2
          subst h1 h2
          exact List.Perm.refl _
  · simp only [hc, Bool.false_eq_true, if_false, Option.some.injEq] at h1 h2
    subst h1 h2
    exact List.Perm.refl _

theorem spawn_sameEntries (os : OS) (scan1 scan2 : String → Option ScanResult)
    (H : ∀ p r1 r2, scan1 p = some r1 → scan2 p = some r2 → SameEntries r1 r2)
    (path : String) (includeSubdirs : Bool) (entries : List DirEntry) :
    ∀ (u1 u2 : List Pending), spawn os scan1 path includeSubdirs entries = some u1 →
      spawn os scan2 path includeSubdirs entries = some u2 →
      (outstanding u1).Perm (outstanding u2) := by
  induction entries with
  | nil =>
    intro u1 u2 h1 h2
    simp only [spawn, Option.some.injEq] at h1 h2
    subst h1 h2
    exact List.Perm.refl _
  | cons e rest ih =>
    intro u1 u2 h1 h2
    rw [spawn] at h1 h2
    cases hg1 : goroutine os scan1 path includeSubdirs e with
    | none => simp [hg1] at h1
    | some g1 =>
      cases hg2 : goroutine os scan2 path includeSubdirs e with
      | none => simp [hg2] at h2
      | some g2 =>
        cases hr1 : spawn os scan1 path includeSubdirs rest with
        | none => simp [hg1, hr1] at h1
        | some t1 =>
          cases hr2 : spawn os scan2 path includeSubdirs rest with
          | none => simp [hg2, hr2] at h2
          | some t2 =>
            simp only [hg1, hr1, hg2, hr2, Option.some.injEq] at h1 h2
            subst h1 h2
            simp only [outstanding_cons]
            exact List.Perm.append
              (goroutine_sameEntries os scan1 scan2 H path includeSubdirs e g1 g2 hg1 hg2)
              (ih t1 t2 hr1 hr2)

theorem scanDirectory_sameEntries (os : OS) (sched1 sched2 : String → List Nat) (fuel1 : Nat) :
    ∀ (fuel2 : Nat) (path : String) (includeSubdirs : Bool) (r1 r2 : ScanResult),
      scanDirectory os sched1 fuel1 path includeSubdirs = some r1 →
      scanDirectory os sched2 fuel2 path includeSubdirs = some r2 → SameEntries r1 r2 := by
  induction fuel1 with
  | zero => intro fuel2 path inc r1 r2 h1; simp [scanDirectory] at h1
  | succ f1 ih =>
    intro fuel2 path inc r1 r2 h1 h2
    cases fuel2 with
    | zero => simp [scanDirectory] at h2
    | succ f2 =>
      rw [scanDirectory] at h1 h2
      cases hread : os.readDir path with
      | error err =>
        simp only [hread, Option.some.injEq] at h1 h2
        subst h1 h2
        exact ⟨rfl, List.Perm.refl _⟩
      | ok entries =>
        simp only [hread] at h1 h2
        cases hs1 : spawn os (fun p => scanDirectory os sched1 f1 p true) path inc entries with
        | none => simp [hs1] at h1
        | some u1 =>
          cases hs2 : spawn os (fun p => scanDirectory os sched2 f2 p true) path inc entries with
          | none => simp [hs2] at h2
          | some u2 =>
            simp only [hs1, hs2, Option.some.injEq] at h1 h2
            subst h1 h2
            refine ⟨rfl, ?_⟩
            have hp := spawn_sameEntries os _ _
              (fun p r1 r2 a b => ih f2 p true r1 r2 a b) path inc entries u1 u2 hs1 hs2
            exact ((waitGroup_perm _ u1).trans hp).trans (waitGroup_perm _ u2).symm

theorem goroutine_returns (os : OS) (scan1 scan2 : String → Option ScanResult)
    (H : ∀ p r1, scan1 p = some r1 → ∃ r2, scan2 p = some r2)
    (path : String) (includeSubdirs : Bool) (e : DirEntry) (g1 : Pending)
    (h1 : goroutine os scan1 path includeSubdirs e = some g1) :
    ∃ g2, goroutine os scan2 path includeSubdirs e = some g2 := by
  unfold goroutine at h1 ⊢
  by_cases hc : (e.isDir && includeSubdirs) = true
  · simp only [hc, if_true] at h1 ⊢
    cases hs1 : scan1 (os.join path e.name) with
    | none => simp [hs1] at h1
    | some r1 =>
      obtain ⟨r2, hs2⟩ := H _ r1 hs1
      obtain ⟨l2, e2⟩ := r2
      cases e2 with
      | none => exact ⟨[[fileInfoOf e], l2], by simp [hs2]⟩
      | some err => exact ⟨[[fileInfoOf e]], by simp [hs2]⟩
  · simp only [hc, Bool.false_eq_true, if_false]
    exact ⟨_, rfl⟩

theorem spawn_returns (os : OS) (scan1 scan2 : String → Option ScanResult)
    (H : ∀ p r1, scan1 p = some r1 → ∃ r2, scan2 p = some r2)
    (path : String) (includeSubdirs : Bool) (entries : List DirEntry) :
    ∀ u1 : List Pending, spawn os scan1 path includeSubdirs entries = some u1 →
      ∃ u2, spawn os scan2 path includeSubdirs entries = some u2 := by
  induction entries with
  | nil => intro u1 _; exact ⟨[], rfl⟩
  | cons e rest ih =>
    intro u1 h1
    rw [spawn] at h1
    cases hg1 : goroutine os scan1 path includeSubdirs e with
    | none => simp [hg1] at h1
    | some g1 =>
      cases hr1 : spawn os scan1 path includeSubdirs rest with
      | none => simp [hg1, hr1] at h1
      | some t1 =>
        obtain ⟨g2, hg2⟩ := goroutine_returns os scan1 scan2 H path includeSubdirs e g1 hg1
        obtain ⟨t2, hr2⟩ := ih t1 hr1
        exact ⟨g2 :: t2, by simp [spawn, hg2, hr2]⟩

/-- Whether a scan returns within a bound does not depend on the schedule. -/
theorem scanDirectory_returns (os : OS) (sched1 sched2 : String → List Nat) (fuel : Nat) :
    ∀ (path : String) (includeSubdirs : Bool) (r1 : ScanResult),
      scanDirectory os sched1 fuel path includeSubdirs = some r1 →
      ∃ r2, scanDirectory os sched2 fuel path includeSubdirs = some r2 := by
  induction fuel with
  | zero => intro path inc r1 h1; simp [scanDirectory] at h1
  | succ f ih =>
    intro path inc r1 h1
    rw [scanDirectory] at h1 ⊢
    cases hread : os.readDir path with
    | error err => exact ⟨_, rfl⟩
    | ok entries =>
      simp only [hread] at h1 ⊢
      cases hs1 : spawn os (fun p => scanDirectory os sched1 f p true) path inc entries with
      | none => simp [hs1] at h1
      | some u1 =>
        obtain ⟨u2, hs2⟩ := spawn_returns os _ (fun p => scanDirectory os sched2 f p true)
          (fun p r1 a => ih p true r1 a) path inc entries u1 hs1
        exact ⟨(waitGroup (sched2 path) u2, none), by simp [hs2]⟩

/-! ## The comparators and the order of the keys -/

theorem lessName_ordering : TransitiveOrdering lessName where
  irrefl a := by simp [lessName]
  trans a b c h1 h2 := by
    simp only [lessName, decide_eq_true_eq] at *
    exact lt_trans h1 h2
  incomp a b c h1 h2 := by
    simp only [lessName, decide_eq_false_iff_not, not_lt] at *
    exact le_trans h2 h1

theorem lessSize_ordering : TransitiveOrdering lessSize where
  irrefl a := by simp [lessSize]
  trans a b c h1 h2 := by
    simp only [lessSize, decide_eq_true_eq] at *
    exact lt_trans h1 h2
  incomp a b c h1 h2 := by
    simp only [lessSize, decide_eq_false_iff_not, not_lt] at *
    exact le_trans h2 h1

theorem lessModification_ordering : TransitiveOrdering lessModification where
  irrefl a := by simp [lessModification]
  trans a b c h1 h2 := by
    simp only [lessModification, decide_eq_true_eq] at *
    exact lt_trans h1 h2
  incomp a b c h1 h2 := by
    simp only [lessModification, decide_eq_false_iff_not, not_lt] at *
    exact le_trans h2 h1

theorem lessPermissions_ordering : TransitiveOrdering lessPermissions where
  irrefl a := by simp [lessPermissions]
  trans a b c h1 h2 := by
    simp only [lessPermissions, decide_eq_true_eq] at *
    exact lt_trans h1 h2
  incomp a b c h1 h2 := by
    simp only [lessPermissions, decide_eq_false_iff_not, not_lt] at *
    exact le_trans h2 h1

theorem sortedBy_lessName (xs : List FileInfo) : SortedBy lessName xs ↔ OrderedByName xs := by
  simp [SortedBy, OrderedByName, lessName]

theorem sortedBy_lessSize (xs : List FileInfo) : SortedBy lessSize xs ↔ OrderedBySize xs := by
  simp [SortedBy, OrderedBySize, lessSize]

theorem sortedBy_lessModification (xs : List FileInfo) :
    SortedBy lessModification xs ↔ OrderedByModification xs := by
  simp [SortedBy, OrderedByModification, lessModification]

theorem sortedBy_lessPermissions (xs : List FileInfo) :
    SortedBy lessPermissions xs ↔ OrderedByPermissions xs := by
  simp [SortedBy, OrderedByPermissions, lessPermissions]

/-! ## The two library sorts meet the contract of `sort.Slice` -/

theorem TransitiveOrdering.asymm {less : FileInfo → FileInfo → Bool}
    (h : TransitiveOrdering less) (a b : FileInfo) (hab : less a b = true) :
    less b a = false := by
  cases hba : less b a with
  | false => rfl
  | true =>
    have := h.trans a b a hab hba
    rw [h.irrefl a] at this
    exact absurd this (by simp)

theorem sinkLeft_perm (less : FileInfo → FileInfo → Bool) (x : FileInfo) (ys : List FileInfo) :
    (sinkLeft less x ys).Perm (x :: ys) := by
  induction ys with
  | nil => exact List.Perm.refl _
  | cons y ys ih =>
    rw [sinkLeft]
    split
    · exact (List.Perm.cons y ih).trans (List.Perm.swap x y ys)
    · exact List.Perm.refl _

theorem sinkLeft_descending (less : FileInfo → FileInfo → Bool) (h : TransitiveOrdering less)
    (x : FileInfo) (ys : List FileInfo) (hys : ys.Pairwise (fun a b => less a b = false)) :
    (sinkLeft less x ys).Pairwise (fun a b => less a b = false) := by
  induction ys with
  | nil => simp [sinkLeft]
  | cons y ys ih =>
    rw [List.pairwise_cons] at hys
    obtain ⟨hy, hrest⟩ := hys
    rw [sinkLeft]
    split
    · rename_i hxy
      rw [List.pairwise_cons]
      refine ⟨?_, ih hrest⟩
      intro z hz
      have hzp := (sinkLeft_perm less x ys).subset hz
      rcases List.mem_cons.mp hzp with rfl | hzs
      · exact h.asymm _ _ hxy
      · exact hy z hzs
    · rename_i hxy
      have hxy' : less x y = false := by simpa using hxy
      rw [List.pairwise_cons]
      refine ⟨?_, List.pairwise_cons.mpr ⟨hy, hrest⟩⟩
      intro z hz
      rcases List.mem_cons.mp hz with rfl | hzp
      · exact hxy'
      · exact h.incomp x y z hxy' (hy z hzp)

theorem foldl_sinkLeft_perm (less : FileInfo → FileInfo → Bool) (xs : List FileInfo) :
    ∀ acc : List FileInfo,
      (xs.foldl (fun sortedRev x => sinkLeft less x sortedRev) acc).Perm (xs ++ acc) := by
  induction xs with
  | nil => intro acc; exact List.Perm.refl _
  | cons x xs ih =>
    intro acc
    rw [List.foldl_cons]
    refine (ih _).trans ?_
    refine (List.Perm.append_left xs (sinkLeft_perm less x acc)).trans ?_
    simp

theorem foldl_sinkLeft_descending (less : FileInfo → FileInfo → Bool)
    (h : TransitiveOrdering less) (xs : List FileInfo) :
    ∀ acc : List FileInfo, acc.Pairwise (fun a b => less a b = false) →
      (xs.foldl (fun sortedRev x => sinkLeft less x sortedRev) acc).Pairwise
        (fun a b => less a b = false) := by
  induction xs with
  | nil => intro acc hacc; exact hacc
  | cons x xs ih =>
    intro acc hacc
    rw [List.foldl_cons]
    exact ih _ (sinkLeft_descending less h x acc hacc)

theorem insertionSort_perm (less : FileInfo → FileInfo → Bool) (xs : List FileInfo) :
    (insertionSort less xs).Perm xs := by
  unfold insertionSort
  refine (List.reverse_perm _).trans ?_
  simpa using foldl_sinkLeft_perm less xs []

theorem insertionSort_sorted (less : FileInfo → FileInfo → Bool) (h : TransitiveOrdering less)
    (xs : List FileInfo) : SortedBy less (insertionSort less xs) := by
  unfold insertionSort SortedBy
  rw [List.pairwise_reverse]
  exact foldl_sinkLeft_descending less h xs [] List.Pairwise.nil

theorem insertionSort_contract : SliceContract insertionSort where
  perm := insertionSort_perm
  sorted less xs h := insertionSort_sorted less h xs

theorem set_perm_cons (a b : FileInfo) (xs : List FileInfo) :
    ∀ j : Nat, xs.get? j = some b → (b :: xs.set j a).Perm (a :: xs) := by
  induction xs with
  | nil => intro j h; simp at h
  | cons y ys ih =>
    intro j h
    cases j with
    | zero =>
      simp only [List.get?_cons_zero, Option.some.injEq] at h
      subst h
      simpa using List.Perm.swap a y ys
    | succ j =>
      simp only [List.get?_cons_succ] at h
      simp only [List.set_cons_succ]
      exact ((List.Perm.swap y b _).trans (List.Perm.cons y (ih j h))).trans
        (List.Perm.swap a y ys)

theorem set_set_perm (a b : FileInfo) (xs : List FileInfo) :
    ∀ i j : Nat, xs.get? i = some a → xs.get? j = some b →
      ((xs.set i b).set j a).Perm xs := by
  induction xs with
  | nil => intro i j h; simp at h
  | cons y ys ih =>
    intro i j hi hj
    cases i with
    | zero =>
      simp only [List.get?_cons_zero, Option.some.injEq] at hi
      subst hi
      cases j with
      | zero =>
        simp only [List.set_cons_zero]
        exact List.Perm.refl _
      | succ j =>
        simp only [List.get?_cons_succ] at hj
        simp only [List.set_cons_zero, List.set_cons_succ]
        exact set_perm_cons y b ys j hj
    | succ i =>
      simp only [List.get?_cons_succ] at hi
      cases j with
      | zero =>
        simp only [List.get?_cons_zero, Option.some.injEq] at hj
        subst hj
        simp only [List.set_cons_zero, List.set_cons_succ]
        exact set_perm_cons y a ys i hi
      | succ j =>
        simp only [List.get?_cons_succ] at hj
        simp only [List.set_cons_succ]
        exact List.Perm.cons y (ih i j hi hj)

theorem swapAt_perm (xs : List FileInfo) (i j : Nat) : (swapAt xs i j).Perm xs := by
  unfold swapAt
  cases hi : xs.get? i with
  | none => exact List.Perm.refl _
  | some a =>
    cases hj : xs.get? j with
    | none => exact List.Perm.refl _
    | some b => exact set_set_perm a b xs i j hi hj

theorem gapPass_perm (less : FileInfo → FileInfo → Bool) (n : Nat) :
    ∀ (i : Nat) (xs : List FileInfo), (gapPass less n i xs).Perm xs := by
  induction n with
  | zero => intro i xs; exact List.Perm.refl _
  | succ n ih =>
    intro i xs
    rw [gapPass]
    cases hi : xs.get? i with
    | none => exact ih _ _
    | some a =>
      cases hj : xs.get? (i - 6) with
      | none => exact ih _ _
      | some b =>
        simp only []
        split
        · exact (ih _ _).trans (swapAt_perm xs i (i - 6))
        · exact ih _ _

theorem gapInsertionSort_contract : SliceContract gapInsertionSort where
  perm less xs := (insertionSort_perm less _).trans (gapPass_perm less _ 6 xs)
  sorted less _ h := insertionSort_sorted less h _

/-! ## One run of `pdqsort_func` -/

theorem sortFiles_three (sortSlice : Sorter) (files : List FileInfo) :
    sortFiles sortSlice 3 files = sortSlice lessModification files := by
  simp [sortFiles]

theorem pdqsort_short (less : FileInfo → FileInfo → Bool) (next : Nat → Nat) (fuel : Nat)
    (data : List FileInfo) (a b limit : Nat) (wb wp : Bool) (h : b - a ≤ 12) :
    pdqsort less next (fuel + 1) data a b limit wb wp = insertionSortRange less data a b := by
  simp [pdqsort, h]

/-- On a slice of at most 12 elements `sort.Slice` of Go 1.19 and later is the
insertion sort. -/
theorem pdqSlice_short (next : Nat → Nat) (less : FileInfo → FileInfo → Bool)
    (xs : List FileInfo) (h : xs.length ≤ 12) : pdqSlice next less xs = insertionSort less xs := by
  unfold pdqSlice
  rw [pdqsort_short less next xs.length xs 0 xs.length _ true true (by omega)]
  simp [insertionSortRange]

/-- On a slice of at most 6 elements `sort.Slice` up to Go 1.18 is the insertion sort. -/
theorem gapInsertionSort_short (less : FileInfo → FileInfo → Bool) (xs : List FileInfo)
    (h : xs.length ≤ 6) : gapInsertionSort less xs = insertionSort less xs := by
  unfold gapInsertionSort
  have h0 : xs.length - 6 = 0 := by omega
  rw [h0, gapPass]

theorem pdqsort_first_step (less : FileInfo → FileInfo → Bool) (next : Nat → Nat) (fuel : Nat)
    (data : List FileInfo) (b limit pivot : Nat) (hlen : 12 < b) (hlimit : limit ≠ 0)
    (hp : choosePivot less data 0 b = (pivot, .increasingHint))
    (hpi : partialInsertionSort less 0 b 5 1 data = (data, false))
    (parted : List FileInfo) (mid : Nat) (already : Bool)
    (hpart : partition less data 0 b pivot = (parted, mid, already)) (hlt : mid < b - mid) :
    pdqsort less next (fuel + 1) data 0 b limit true true =
      pdqsort less next fuel (pdqsort less next fuel parted 0 mid limit true true)
        (mid + 1) b limit (decide (mid ≥ b / 8)) already := by
  rw [pdqsort]
  have h12 : ¬ (b ≤ 12) := by omega
  simp only [h12, hlimit, if_false, Bool.not_true, Bool.false_eq_true, hp, Nat.zero_add,
    Bool.and_self, decide_True, Bool.and_true, if_true, hpi, reduceCtorEq, Nat.sub_zero,
    gt_iff_lt, Nat.lt_irrefl, decide_False, Bool.false_and, hpart, hlt]

/-- On `thirteenFiles`, compared by modification time, `sort.Slice` of Go 1.19 and later
returns `thirteenMoved`, whatever the pseudo-random generator. -/
theorem pdqSlice_thirteenFiles (next : Nat → Nat) :
    pdqSlice next lessModification thirteenFiles = thirteenMoved := by
  have hp : choosePivot lessModification thirteenFiles 0 13 = (6, .increasingHint) := by decide
  have hpi : partialInsertionSort lessModification 0 13 5 1 thirteenFiles
      = (thirteenFiles, false) := by decide
  have hpart : partition lessModification thirteenFiles 0 13 6 = (thirteenMoved, 1, false) := by
    decide
  have hlen : thirteenFiles.length = 13 := rfl
  have hbits : bitsLen 13 = 4 := by decide
  have h1 : insertionSortRange lessModification thirteenMoved 0 1 = thirteenMoved := by decide
  have h2 : insertionSortRange lessModification thirteenMoved 2 13 = thirteenMoved := by decide
  unfold pdqSlice
  rw [hlen, hbits]
  rw [pdqsort_first_step lessModification next 13 thirteenFiles 13 4 6 (by decide) (by decide)
    hp hpi thirteenMoved 1 false hpart (by decide)]
  rw [pdqsort_short _ _ 12 _ 0 1 _ _ _ (by decide), h1]
  rw [pdqsort_short _ _ 12 _ 2 13 _ _ _ (by decide), h2]

/-! ## The example trees are mounted -/

theorem treeR_mounted : treeR.Mounted demoOS "/r" := by
  simp [Forest.Mounted, Forest.Below, treeR, demoOS, Forest.entries, Stat.entry]

theorem treeS_mounted : treeS.Mounted demoOS "/s" := by
  simp [Forest.Mounted, Forest.Below, treeS, demoOS, Forest.entries, Stat.entry]

/-! ## Sorted permutations -/

theorem sortedBy_unique (less : FileInfo → FileInfo → Bool) (h : TransitiveOrdering less) :
    ∀ l1 l2 : List FileInfo, l1.Perm l2 → SortedBy less l1 → SortedBy less l2 →
      (∀ a ∈ l1, ∀ b ∈ l1, tied less a b = true → a = b) → l1 = l2 := by
  intro l1
  induction l1 with
  | nil => intro l2 hp _ _ _; exact (List.Perm.nil_eq hp)
  | cons a t1 ih =>
    intro l2 hp h1 h2 hties
    cases l2 with
    | nil => exact absurd hp.length_eq (by simp)
    | cons b t2 =>
      have ha : a ∈ b :: t2 := hp.subset (List.mem_cons_self a t1)
      have hb : b ∈ a :: t1 := hp.symm.subset (List.mem_cons_self b t2)
      unfold SortedBy at h1 h2
      rw [List.pairwise_cons] at h1 h2
      have hba : less b a = false := by
        rcases List.mem_cons.mp hb with rfl | hb'
        · exact h.irrefl _
        · exact h1.1 b hb'
      have hab : less a b = false := by
        rcases List.mem_cons.mp ha with rfl | ha'
        · exact h.irrefl _
        · exact h2.1 a ha'
      have heq : a = b := hties a (List.mem_cons_self a t1) b hb (by simp [tied, hab, hba])
      subst heq
      have hp' : t1.Perm t2 := List.Perm.cons_inv hp
      have := ih t2 hp' h1.2 h2.2
        (fun x hx y hy => hties x (List.mem_cons_of_mem _ hx) y (List.mem_cons_of_mem _ hy))
      rw [this]

theorem tied_lessName (a b : FileInfo) : tied lessName a b = true ↔ a.Name = b.Name := by
  simp only [tied, lessName, Bool.and_eq_true, Bool.not_eq_true', decide_eq_false_iff_not,
    not_lt]
  constructor
  · rintro ⟨h1, h2⟩; exact le_antisymm h2 h1
  · intro h; rw [h]; exact ⟨le_refl _, le_refl _⟩

/-- The comparator of line 103 on the characters of the names. -/
theorem lessName_eq : lessName = fun a b => decide (a.Name.toList < b.Name.toList) := by
  funext a b
  simp [lessName, String.lt_iff_toList_lt]

/-! ## The insertion sort keeps the order of tied entries -/

theorem not_less_of_tied (less : FileInfo → FileInfo → Bool) (h : TransitiveOrdering less)
    (z x y : FileInfo) (hx : tied less z x = true) (hy : tied less z y = true) :
    less x y = false := by
  simp only [tied, Bool.and_eq_true, Bool.not_eq_true'] at hx hy
  exact h.incomp x z y hx.2 hy.1

theorem sinkLeft_filter_tied (less : FileInfo → FileInfo → Bool) (h : TransitiveOrdering less)
    (z x : FileInfo) (ys : List FileInfo) :
    (sinkLeft less x ys).filter (tied less z) = (x :: ys).filter (tied less z) := by
  induction ys with
  | nil => rfl
  | cons y ys ih =>
    rw [sinkLeft]
    by_cases hxy : less x y = true
    · simp only [hxy, if_true]
      rw [List.filter_cons, ih]
      by_cases hy : tied less z y = true
      · by_cases hx : tied less z x = true
        · have := not_less_of_tied less h z x y hx hy
          rw [hxy] at this
          exact absurd this (by simp)
        · simp [List.filter_cons, hx, hy]
      · simp [List.filter_cons, hy]
    · simp only [hxy, Bool.false_eq_true, if_false]

theorem foldl_sinkLeft_filter_tied (less : FileInfo → FileInfo → Bool)
    (h : TransitiveOrdering less) (z : FileInfo) (xs : List FileInfo) :
    ∀ acc : List FileInfo,
      (xs.foldl (fun sortedRev x => sinkLeft less x sortedRev) acc).filter (tied less z)
        = (xs.filter (tied less z)).reverse ++ acc.filter (tied less z) := by
  induction xs with
  | nil => intro acc; simp
  | cons x xs ih =>
    intro acc
    rw [List.foldl_cons, ih, sinkLeft_filter_tied less h z x acc]
    by_cases hx : tied less z x = true
    · simp [List.filter_cons, hx]
    · simp [List.filter_cons, hx]

/-- The insertion sort is stable: the entries tied with `z` keep their order. -/
theorem insertionSort_filter_tied (less : FileInfo → FileInfo → Bool)
    (h : TransitiveOrdering less) (z : FileInfo) (xs : List FileInfo) :
    (insertionSort less xs).filter (tied less z) = xs.filter (tied less z) := by
  unfold insertionSort
  rw [List.filter_reverse, foldl_sinkLeft_filter_tied less h z xs []]
  simp

theorem comparatorOf_some (sortBy : Int) (less : FileInfo → FileInfo → Bool)
    (h : comparatorOf sortBy = some less) :
    TransitiveOrdering less ∧
      ∀ (sortSlice : Sorter) (files : List FileInfo),
        sortFiles sortSlice sortBy files = sortSlice less files := by
  unfold comparatorOf at h
  unfold sortFiles
  split_ifs at h with h1 h2 h3 h4
  · cases h; exact ⟨lessName_ordering, fun _ _ => by simp [h1]⟩
  · cases h; exact ⟨lessSize_ordering, fun _ _ => by simp [h1, h2]⟩
  · cases h; exact ⟨lessModification_ordering, fun _ _ => by simp [h1, h2, h3]⟩
  · cases h; exact ⟨lessPermissions_ordering, fun _ _ => by simp [h1, h2, h3, h4]⟩

/-- With the insertion sort, the switch of lines 100-117 keeps the order of tied
entries, whatever the slice. -/
theorem keepsTieOrder_insertionSort (sortBy : Int) (files : List FileInfo) :
    KeepsTieOrder insertionSort sortBy files := by
  intro less hless x
  obtain ⟨hord, hsort⟩ := comparatorOf_some sortBy less hless
  rw [hsort]
  exact insertionSort_filter_tied less hord x files

/-! ## Every record of a scan stands for one object -/

theorem describes_fileInfoOf (e : DirEntry) : Describes (fileInfoOf e) e := by
  refine ⟨rfl, rfl, ?_, rfl, rfl⟩
  intro hd
  simp [fileInfoOf, hd]

theorem forall₂_describes_map (objs : List DirEntry) :
    List.Forall₂ Describes (objs.map fileInfoOf) objs := by
  induction objs with
  | nil => exact List.Forall₂.nil
  | cons e rest ih => exact List.Forall₂.cons (describes_fileInfoOf e) ih

/-- A slice that is a permutation of the records built for `objs` matches, element by
element, some arrangement of `objs`. -/
theorem listed_of_perm (files : List FileInfo) (objs : List DirEntry)
    (h : files.Perm (objs.map fileInfoOf)) :
    ∃ listed : List DirEntry, List.Forall₂ Describes files listed ∧ listed.Perm objs :=
  List.perm_comp_forall₂ h (forall₂_describes_map objs)

/-! ## The claims -/

/-- C1: the menu stores the number of the action (3 to 6) in `sortBy`, but the switch
that sorts reads 1 to 4. So, in every state and for every slice, the iteration after
action 3 ("Sort by Name") sorts with the comparator of the modification time, the one
after action 4 ("Sort by Size") with the comparator of the permissions, and the ones
after actions 5 and 6 do not sort. In `/t`, whose files are `a` (newer) and `b` (older),
the list displayed after action 3 is `b`, `a`, which is not ordered by name; the list
displayed after action 5 is `a`, `b` as scanned, which is not ordered by modification
time. This holds for every `sort.Slice` that meets its contract. -/
theorem menu_sort_actions_select_wrong_branch (sortSlice : Sorter)
    (hS : SliceContract sortSlice) :
    (∀ (os : OS) (s : Session) (dirName : String) (files : List FileInfo),
      sortFiles sortSlice (menu os s 3 dirName).state.sortBy files
        = sortSlice lessModification files ∧
      sortFiles sortSlice (menu os s 4 dirName).state.sortBy files
        = sortSlice lessPermissions files ∧
      sortFiles sortSlice (menu os s 5 dirName).state.sortBy files = files ∧
      sortFiles sortSlice (menu os s 6 dirName).state.sortBy files = files) ∧
    (menu demoOS ⟨"/t", false, 0⟩ 3 "").state = ⟨"/t", false, 3⟩ ∧
    listing demoOS sortSlice spawnOrder 1 (menu demoOS ⟨"/t", false, 0⟩ 3 "").state
      = some (some [⟨"b", 5, false, 0o644, 1⟩, ⟨"a", 5, false, 0o644, 2⟩]) ∧
    ¬ OrderedByName [⟨"b", 5, false, 0o644, 1⟩, ⟨"a", 5, false, 0o644, 2⟩] ∧
    (menu demoOS ⟨"/t", false, 0⟩ 5 "").state = ⟨"/t", false, 5⟩ ∧
    listing demoOS sortSlice spawnOrder 1 (menu demoOS ⟨"/t", false, 0⟩ 5 "").state
      = some (some [⟨"a", 5, false, 0o644, 2⟩, ⟨"b", 5, false, 0o644, 1⟩]) ∧
    ¬ OrderedByModification [⟨"a", 5, false, 0o644, 2⟩, ⟨"b", 5, false, 0o644, 1⟩] := by
  have hscan : scanDirectory demoOS spawnOrder 1 "/t" false
      = some ([⟨"a", 5, false, 0o644, 2⟩, ⟨"b", 5, false, 0o644, 1⟩], none) := by decide
  have hsort : sortSlice lessModification
      [⟨"a", 5, false, 0o644, 2⟩, ⟨"b", 5, false, 0o644, 1⟩]
      = [⟨"b", 5, false, 0o644, 1⟩, ⟨"a", 5, false, 0o644, 2⟩] := by
    refine sortedBy_unique lessModification lessModification_ordering _ _
      ((hS.perm _ _).trans (List.Perm.swap _ _ _))
      (hS.sorted _ _ lessModification_ordering) (by simp [SortedBy, lessModification]) ?_
    intro x hx y hy
    have hxm := (hS.perm _ _).subset hx
    have hym := (hS.perm _ _).subset hy
    simp only [List.mem_cons, List.mem_singleton, List.not_mem_nil, or_false] at hxm hym
    rcases hxm with rfl | rfl <;> rcases hym with rfl | rfl <;>
      simp [tied, lessModification]
  refine ⟨?_, by decide, ?_, ?_, by decide, ?_, ?_⟩
  · intro os s dirName files
    refine ⟨?_, ?_, ?_, ?_⟩ <;> simp [menu, sortFiles]
  · have hm : (menu demoOS ⟨"/t", false, 0⟩ 3 "").state = ⟨"/t", false, 3⟩ := by decide
    rw [hm]
    simp only [listing, hscan]
    simp [sortFiles, hsort]
  · simp only [OrderedByName, List.pairwise_cons, List.mem_singleton, forall_eq,
      String.le_iff_toList_le]
    decide
  · have hm : (menu demoOS ⟨"/t", false, 0⟩ 5 "").state = ⟨"/t", false, 5⟩ := by decide
    rw [hm]
    simp only [listing, hscan]
    simp [sortFiles]
  · simp [OrderedByModification]

/-- C1 (instance): the list displayed in `/t` after action 3, for the insertion sort of
the Go library. -/
theorem menu_sort_actions_select_wrong_branch_witness :
    SliceContract insertionSort ∧
    listing demoOS insertionSort spawnOrder 1 (menu demoOS ⟨"/t", false, 0⟩ 3 "").state
      = some (some [⟨"b", 5, false, 0o644, 1⟩, ⟨"a", 5, false, 0o644, 2⟩]) :=
  ⟨insertionSort_contract,
    (menu_sort_actions_select_wrong_branch insertionSort insertionSort_contract).2.2.1⟩

/-- C2: on a directory tree `F` whose directories are all readable, mounted at `path`,
`scanDirectory(path, true)` returns without error once the recursion bound reaches the
height of the tree, whatever the schedule of the goroutines. The slice has as many
elements as there are objects below the root, and it matches, element by element, an
arrangement `listed` of all these objects: every descendant has exactly one record,
which carries its name, its kind, its permission bits, its modification time and, for a
non-directory, its size. -/
theorem scan_recursive_complete (os : OS) (sched : String → List Nat) (path : String)
    (F : Forest) (hF : F.Mounted os path) (hread : F.allReadable = true)
    (fuel : Nat) (hfuel : F.height ≤ fuel) :
    ∃ files listed, scanDirectory os sched fuel path true = some (files, none) ∧
      files.length = F.count ∧ listed.Perm F.objects ∧
      List.Forall₂ Describes files listed ∧ files.Perm (F.objects.map fileInfoOf) := by
  obtain ⟨files, hscan, hperm⟩ := scan_tree os sched path F hF fuel hfuel
  rw [F.reachable_of_allReadable hread] at hperm
  obtain ⟨listed, hdesc, hlisted⟩ := listed_of_perm files F.objects hperm
  refine ⟨files, listed, hscan, ?_, hlisted, hdesc, hperm⟩
  rw [hperm.length_eq, List.length_map, F.length_objects]

/-- C2 (instance): the scan of `/r`, with the goroutine of `b` running before that of
`a`, returns one record for each of the four objects below `/r`. -/
theorem scan_recursive_complete_witness :
    treeR.Mounted demoOS "/r" ∧ treeR.allReadable = true ∧ treeR.height ≤ 2 ∧
    treeR.objects = [⟨"a", 4096, dirMode, 10, true⟩, ⟨"x", 1, 0o644, 30, false⟩,
      ⟨"b", 4096, dirMode, 20, true⟩, ⟨"x", 2, 0o644, 40, false⟩] ∧
    scanDirectory demoOS secondFirst 2 "/r" true = some (scanBA, none) ∧
    ∃ files listed, scanDirectory demoOS secondFirst 2 "/r" true = some (files, none) ∧
      files.length = treeR.count ∧ listed.Perm treeR.objects ∧
      List.Forall₂ Describes files listed ∧ files.Perm (treeR.objects.map fileInfoOf) :=
  ⟨treeR_mounted, by decide, by decide, by decide, by decide,
    scan_recursive_complete demoOS secondFirst "/r" treeR treeR_mounted (by decide) 2
      (by decide)⟩

/-- C3: when `ioutil.ReadDir(path)` lists `entries`, `scanDirectory(path, false)` returns
without error a slice of the same length that is a permutation of the `FileInfo` values
of these entries (nothing below a subdirectory), each with the name and the `IsDir`
flag of its entry and, for a non-directory, its size. -/
theorem scan_flat_children (os : OS) (sched : String → List Nat) (fuel : Nat)
    (path : String) (entries : List DirEntry) (h : os.readDir path = .ok entries) :
    ∃ files, scanDirectory os sched (fuel + 1) path false = some (files, none) ∧
      files.length = entries.length ∧ files.Perm (entries.map fileInfoOf) ∧
      ∀ e ∈ entries, (fileInfoOf e).Name = e.name ∧ (fileInfoOf e).IsDir = e.isDir ∧
        (e.isDir = false → (fileInfoOf e).Size = e.size) := by
  obtain ⟨units, hs, ho⟩ := spawn_flat os (fun p => scanDirectory os sched fuel p true) path entries
  have hperm : (waitGroup (sched path) units).Perm (entries.map fileInfoOf) := by
    rw [← ho]; exact waitGroup_perm _ units
  refine ⟨_, scanDirectory_ok os sched fuel path false entries units h hs, ?_, hperm, ?_⟩
  · rw [hperm.length_eq, List.length_map]
  · intro e _
    refine ⟨rfl, rfl, ?_⟩
    intro hd
    simp [fileInfoOf, hd]

/-- C3 (instance): the scan of `/s` without recursion returns its three children. -/
theorem scan_flat_children_witness :
    demoOS.readDir "/s" = .ok treeS.entries ∧
    ∃ files, scanDirectory demoOS spawnOrder 1 "/s" false = some (files, none) ∧
      files.length = treeS.entries.length ∧ files.Perm (treeS.entries.map fileInfoOf) ∧
      ∀ e ∈ treeS.entries, (fileInfoOf e).Name = e.name ∧ (fileInfoOf e).IsDir = e.isDir ∧
        (e.isDir = false → (fileInfoOf e).Size = e.size) :=
  ⟨treeS_mounted.1, scan_flat_children demoOS spawnOrder 0 "/s" treeS.entries treeS_mounted.1⟩

/-- C4: when `ioutil.ReadDir(path)` fails, `scanDirectory` returns that error and the
nil slice, for either value of `includeSubdirs` and whatever the schedule. -/
theorem scan_unlistable (os : OS) (sched : String → List Nat) (fuel : Nat) (path : String)
    (includeSubdirs : Bool) (err : String) (h : os.readDir path = .error err) :
    scanDirectory os sched (fuel + 1) path includeSubdirs = some ([], some err) := by
  simp [scanDirectory, h]

/-- C4 (instance): `/nonexistent-path` cannot be listed. -/
theorem scan_unlistable_witness :
    demoOS.readDir "/nonexistent-path"
      = .error "open /nonexistent-path: no such file or directory" ∧
    scanDirectory demoOS spawnOrder 1 "/nonexistent-path" false
      = some ([], some "open /nonexistent-path: no such file or directory") :=
  ⟨by simp [demoOS],
    scan_unlistable demoOS spawnOrder 0 "/nonexistent-path" false _ (by simp [demoOS])⟩

/-- C5: on a directory tree `F` mounted at a readable `path`, in which some directories
may be unreadable, `scanDirectory(path, true)` returns without error once the recursion
bound reaches the height of the tree, whatever the schedule. The slice matches, element
by element, an arrangement `listed` of the objects that are not strictly below an
unreadable directory (so each of them, an unreadable directory included, has exactly
one record with its name, kind, permission bits, modification time and, for a
non-directory, size), and `listed` together with the objects strictly below unreadable
directories is an arrangement of all objects of the tree: nothing inside an unreadable
directory has a record. -/
theorem scan_skips_unreadable (os : OS) (sched : String → List Nat) (path : String)
    (F : Forest) (hF : F.Mounted os path) (fuel : Nat) (hfuel : F.height ≤ fuel) :
    ∃ files listed, scanDirectory os sched fuel path true = some (files, none) ∧
      List.Forall₂ Describes files listed ∧ listed.Perm F.reachable ∧
      (listed ++ F.unreachable).Perm F.objects ∧
      files.Perm (F.reachable.map fileInfoOf) ∧
      (files ++ F.unreachable.map fileInfoOf).Perm (F.objects.map fileInfoOf) := by
  obtain ⟨files, hscan, hperm⟩ := scan_tree os sched path F hF fuel hfuel
  obtain ⟨listed, hdesc, hlisted⟩ := listed_of_perm files F.reachable hperm
  refine ⟨files, listed, hscan, hdesc, hlisted, ?_, hperm, ?_⟩
  · exact (List.Perm.append_right _ hlisted).trans F.objects_perm
  · refine (List.Perm.append_right _ hperm).trans ?_
    rw [← List.map_append]
    exact List.Perm.map _ F.objects_perm

/-- C5 (instance): the scan of `/s` returns records for `locked`, `note`, `open` and
`open/y`, and none for `locked/secret`. -/
theorem scan_skips_unreadable_witness :
    treeS.Mounted demoOS "/s" ∧ treeS.height ≤ 2 ∧
    treeS.reachable = [⟨"locked", 4096, dirMode, 50, true⟩, ⟨"note", 7, 0o600, 60, false⟩,
      ⟨"open", 4096, dirMode, 70, true⟩, ⟨"y", 3, 0o644, 80, false⟩] ∧
    treeS.unreachable = [⟨"secret", 9, 0o600, 55, false⟩] ∧
    scanDirectory demoOS spawnOrder 2 "/s" true
      = some ([⟨"locked", 0, true, 0o755, 50⟩, ⟨"note", 7, false, 0o600, 60⟩,
          ⟨"open", 0, true, 0o755, 70⟩, ⟨"y", 3, false, 0o644, 80⟩], none) ∧
    ∃ files listed, scanDirectory demoOS spawnOrder 2 "/s" true = some (files, none) ∧
      List.Forall₂ Describes files listed ∧ listed.Perm treeS.reachable ∧
      (listed ++ treeS.unreachable).Perm treeS.objects ∧
      files.Perm (treeS.reachable.map fileInfoOf) ∧
      (files ++ treeS.unreachable.map fileInfoOf).Perm (treeS.objects.map fileInfoOf) :=
  ⟨treeS_mounted, by decide, by decide, by decide, by decide,
    scan_skips_unreadable demoOS spawnOrder "/s" treeS treeS_mounted 2 (by decide)⟩

/-- C6: with a `sort.Slice` that meets its contract, each of the four branches of the
switch returns a permutation of the slice that is non-decreasing in its key: `Name` for
branch 1, `Size` for branch 2, `Modification` for branch 3, `Permissions` for branch 4. -/
theorem sort_branches_ordered (sortSlice : Sorter) (hS : SliceContract sortSlice)
    (files : List FileInfo) :
    ((sortFiles sortSlice 1 files).Perm files ∧ OrderedByName (sortFiles sortSlice 1 files)) ∧
    ((sortFiles sortSlice 2 files).Perm files ∧ OrderedBySize (sortFiles sortSlice 2 files)) ∧
    ((sortFiles sortSlice 3 files).Perm files ∧
      OrderedByModification (sortFiles sortSlice 3 files)) ∧
    ((sortFiles sortSlice 4 files).Perm files ∧
      OrderedByPermissions (sortFiles sortSlice 4 files)) := by
  refine ⟨⟨?_, ?_⟩, ⟨?_, ?_⟩, ⟨?_, ?_⟩, ⟨?_, ?_⟩⟩
  · exact hS.perm lessName files
  · exact (sortedBy_lessName _).mp (hS.sorted lessName files lessName_ordering)
  · exact hS.perm lessSize files
  · exact (sortedBy_lessSize _).mp (hS.sorted lessSize files lessSize_ordering)
  · exact hS.perm lessModification files
  · exact (sortedBy_lessModification _).mp
      (hS.sorted lessModification files lessModification_ordering)
  · exact hS.perm lessPermissions files
  · exact (sortedBy_lessPermissions _).mp
      (hS.sorted lessPermissions files lessPermissions_ordering)

/-- C6 (instance): the four branches on seven entries, with the insertion sort of the
Go library. -/
theorem sort_branches_ordered_witness :
    SliceContract insertionSort ∧
    ((sortFiles insertionSort 1 sevenFiles).Perm sevenFiles ∧
      OrderedByName (sortFiles insertionSort 1 sevenFiles)) ∧
    ((sortFiles insertionSort 2 sevenFiles).Perm sevenFiles ∧
      OrderedBySize (sortFiles insertionSort 2 sevenFiles)) ∧
    ((sortFiles insertionSort 3 sevenFiles).Perm sevenFiles ∧
      OrderedByModification (sortFiles insertionSort 3 sevenFiles)) ∧
    ((sortFiles insertionSort 4 sevenFiles).Perm sevenFiles ∧
      OrderedByPermissions (sortFiles insertionSort 4 sevenFiles)) :=
  ⟨insertionSort_contract, sort_branches_ordered insertionSort insertionSort_contract sevenFiles⟩

/-- C7: action 1 with the name `dirName`. If `os.Stat` of the joined path succeeds
(whatever kind of object it finds), `currentPath` becomes the joined path; if it fails,
`currentPath` stays and the error is printed. In both cases `includeSubdirs` and
`sortBy` are unchanged and the loop goes on. -/
theorem descend_action (os : OS) (s : Session) (dirName : String) :
    (∀ info, os.stat (os.join s.currentPath dirName) = .ok info →
      menu os s 1 dirName =
        { state := ⟨os.join s.currentPath dirName, s.includeSubdirs, s.sortBy⟩,
          printed := [], exits := false }) ∧
    (∀ err, os.stat (os.join s.currentPath dirName) = .error err →
      menu os s 1 dirName = { state := s, printed := ["Error: " ++ err], exits := false }) := by
  constructor
  · intro info h
    simp [menu, h]
  · intro err h
    simp [menu, h]

/-- C7 (instance): from `/t`, descending into the file `a` moves to `/t/a`; descending
into `zzz`, which does not exist, stays in `/t`. -/
theorem descend_action_witness :
    menu demoOS ⟨"/t", true, 4⟩ 1 "a"
      = { state := ⟨"/t/a", true, 4⟩, printed := [], exits := false } ∧
    menu demoOS ⟨"/t", true, 4⟩ 1 "zzz"
      = { state := ⟨"/t", true, 4⟩,
          printed := ["Error: stat /t/zzz: no such file or directory"], exits := false } :=
  ⟨(descend_action demoOS ⟨"/t", true, 4⟩ "a").1 ⟨"a", 5, 0o644, 2, false⟩ (by simp [demoOS]),
   (descend_action demoOS ⟨"/t", true, 4⟩ "zzz").2 "stat /t/zzz: no such file or directory"
     (by simp [demoOS])⟩

/-- C9 (as stated, refuted): the input `7x` is not one of 1 to 7 and is not an integer,
so `fmt.Scanln` returns an error; but it has stored the leading 7 in `choice` before,
and the loop returns as for action 7, without the invalid-choice message. Likewise
`3x` sets `sortBy` to 3. -/
theorem scanln_keeps_leading_integer :
    scanlnFails "7x\n" = true ∧ scanChoice "7x\n" = 7 ∧
    menu demoOS ⟨"/t", false, 0⟩ (scanChoice "7x\n") ""
      = { state := ⟨"/t", false, 0⟩, printed := [], exits := true } ∧
    loopBody demoOS insertionSort spawnOrder 1 ⟨"/t", false, 0⟩ "7x\n" ""
      = some (some [⟨"a", 5, false, 0o644, 2⟩, ⟨"b", 5, false, 0o644, 1⟩],
          { state := ⟨"/t", false, 0⟩, printed := [], exits := true }) ∧
    scanlnFails "3x\n" = true ∧
    menu demoOS ⟨"/t", false, 0⟩ (scanChoice "3x\n") ""
      = { state := ⟨"/t", false, 3⟩, printed := [], exits := false } := by
  refine ⟨by decide, by decide, by decide, by decide, by decide, by decide⟩

/-- C9 (amended): when `fmt.Scanln` reads no integer from the input (which leaves
`choice` at 0), or the integer it stores in `choice` is not one of 1 to 7, the switch
prints the invalid-choice message, leaves `currentPath`, `includeSubdirs` and `sortBy`
as they are and does not return; so does every iteration of the loop that gets to the
menu. -/
theorem invalid_choice (os : OS) (s : Session) (input : String) (dirName : String)
    (h : scanInt input.toList = none ∨ scanChoice input < 1 ∨ 7 < scanChoice input) :
    menu os s (scanChoice input) dirName =
      { state := s, printed := ["Invalid choice. Please try again."], exits := false } ∧
    ∀ (sortSlice : Sorter) (sched : String → List Nat) (fuel : Nat) (files : List FileInfo),
      scanDirectory os sched fuel s.currentPath s.includeSubdirs = some (files, none) →
      files ≠ [] →
      loopBody os sortSlice sched fuel s input dirName =
        some (some (sortFiles sortSlice s.sortBy files),
          { state := s, printed := ["Invalid choice. Please try again."], exits := false }) := by
  have hc : scanChoice input < 1 ∨ 7 < scanChoice input := by
    rcases h with h | h
    · have h0 : scanChoice input = 0 := by
        unfold scanChoice
        rw [h]
      left
      omega
    · exact h
  have h1 : scanChoice input ≠ 1 := by omega
  have h2 : scanChoice input ≠ 2 := by omega
  have h3 : scanChoice input ≠ 3 := by omega
  have h4 : scanChoice input ≠ 4 := by omega
  have h5 : scanChoice input ≠ 5 := by omega
  have h6 : scanChoice input ≠ 6 := by omega
  have h7 : scanChoice input ≠ 7 := by omega
  have hmenu : menu os s (scanChoice input) dirName =
      { state := s, printed := ["Invalid choice. Please try again."], exits := false } := by
    simp [menu, h1, h2, h3, h4, h5, h6, h7]
  refine ⟨hmenu, ?_⟩
  intro sortSlice sched fuel files hscan hne
  have hlen : files.length ≠ 0 := by
    intro h0
    exact hne (List.length_eq_zero.mp h0)
  simp [loopBody, hscan, hlen, hmenu]

/-- C9 (instance): the input `8`, and the input `abc`, from which no integer is read,
in `/t`. -/
theorem invalid_choice_witness :
    scanChoice "8\n" = 8 ∧
    menu demoOS ⟨"/t", false, 4⟩ (scanChoice "8\n") "a" =
      { state := ⟨"/t", false, 4⟩, printed := ["Invalid choice. Please try again."],
        exits := false } ∧
    scanInt "abc\n".toList = none ∧
    loopBody demoOS insertionSort spawnOrder 1 ⟨"/t", false, 4⟩ "abc\n" "a" =
      some (some (sortFiles insertionSort 4
          [⟨"a", 5, false, 0o644, 2⟩, ⟨"b", 5, false, 0o644, 1⟩]),
        { state := ⟨"/t", false, 4⟩, printed := ["Invalid choice. Please try again."],
          exits := false }) :=
  ⟨by decide,
   (invalid_choice demoOS ⟨"/t", false, 4⟩ "8\n" "a" (Or.inr (Or.inr (by decide)))).1,
   by decide,
   (invalid_choice demoOS ⟨"/t", false, 4⟩ "abc\n" "a" (Or.inl (by decide))).2 insertionSort
     spawnOrder 1 _ (by decide) (by decide)⟩

/-- C8 (as stated, refuted): two scans of `/r` with recursion, under two schedules,
return `scanAB` and `scanBA`. The entries `a/x` and `b/x` have the same name and
different sizes; the insertion sort, which is what `sort.Slice` does on four elements in
every version of the library, leaves them in the order of each scan, so the two lists
sorted by name differ. -/
theorem scans_sorted_by_name_differ :
    scanDirectory demoOS spawnOrder 2 "/r" true = some (scanAB, none) ∧
    scanDirectory demoOS secondFirst 2 "/r" true = some (scanBA, none) ∧
    SliceContract insertionSort ∧
    sortFiles insertionSort 1 scanAB
      = [⟨"a", 0, true, 0o755, 10⟩, ⟨"b", 0, true, 0o755, 20⟩,
         ⟨"x", 1, false, 0o644, 30⟩, ⟨"x", 2, false, 0o644, 40⟩] ∧
    sortFiles insertionSort 1 scanBA
      = [⟨"a", 0, true, 0o755, 10⟩, ⟨"b", 0, true, 0o755, 20⟩,
         ⟨"x", 2, false, 0o644, 40⟩, ⟨"x", 1, false, 0o644, 30⟩] ∧
    sortFiles insertionSort 1 scanAB ≠ sortFiles insertionSort 1 scanBA ∧
    sortFiles gapInsertionSort 1 scanAB ≠ sortFiles gapInsertionSort 1 scanBA ∧
    ∀ next : Nat → Nat, sortFiles (pdqSlice next) 1 scanAB ≠ sortFiles (pdqSlice next) 1 scanBA := by
  have h1 : sortFiles insertionSort 1 scanAB
      = [⟨"a", 0, true, 0o755, 10⟩, ⟨"b", 0, true, 0o755, 20⟩,
         ⟨"x", 1, false, 0o644, 30⟩, ⟨"x", 2, false, 0o644, 40⟩] := by
    simp only [sortFiles, if_true, lessName_eq]
    decide
  have h2 : sortFiles insertionSort 1 scanBA
      = [⟨"a", 0, true, 0o755, 10⟩, ⟨"b", 0, true, 0o755, 20⟩,
         ⟨"x", 2, false, 0o644, 40⟩, ⟨"x", 1, false, 0o644, 30⟩] := by
    simp only [sortFiles, if_true, lessName_eq]
    decide
  have hne : sortFiles insertionSort 1 scanAB ≠ sortFiles insertionSort 1 scanBA := by
    rw [h1, h2]
    decide
  refine ⟨by decide, by decide, insertionSort_contract, h1, h2, hne, ?_, ?_⟩
  · simp only [sortFiles, if_true] at hne ⊢
    rw [gapInsertionSort_short lessName scanAB (by decide),
      gapInsertionSort_short lessName scanBA (by decide)]
    exact hne
  · intro next
    simp only [sortFiles, if_true] at hne ⊢
    rw [pdqSlice_short next lessName scanAB (by decide),
      pdqSlice_short next lessName scanBA (by decide)]
    exact hne

/-- C8 (amended): when a scan of `path` returns the slice `files1` without error, a
scan of the same path of the same filesystem with the same `includeSubdirs` under any
other schedule returns as well; every slice `files2` it returns is a permutation of
`files1`, and, when no two different entries of `files1` have the same name, the two
slices sorted by name are equal, for every `sort.Slice` that meets its contract. -/
theorem scans_sorted_by_name_agree (sortSlice : Sorter) (hS : SliceContract sortSlice)
    (os : OS) (sched1 sched2 : String → List Nat) (fuel1 : Nat) (path : String)
    (includeSubdirs : Bool) (files1 : List FileInfo)
    (h1 : scanDirectory os sched1 fuel1 path includeSubdirs = some (files1, none)) :
    (∃ files2, scanDirectory os sched2 fuel1 path includeSubdirs = some (files2, none)) ∧
    ∀ (fuel2 : Nat) (files2 : List FileInfo),
      scanDirectory os sched2 fuel2 path includeSubdirs = some (files2, none) →
      files1.Perm files2 ∧
      ((∀ a ∈ files1, ∀ b ∈ files1, a.Name = b.Name → a = b) →
        sortFiles sortSlice 1 files1 = sortFiles sortSlice 1 files2) := by
  constructor
  · obtain ⟨r2, h2⟩ := scanDirectory_returns os sched1 sched2 fuel1 path includeSubdirs _ h1
    have hsame := scanDirectory_sameEntries os sched1 sched2 fuel1 fuel1 path includeSubdirs
      _ _ h1 h2
    obtain ⟨l2, e2⟩ := r2
    have he : e2 = none := hsame.1.symm
    subst he
    exact ⟨l2, h2⟩
  · intro fuel2 files2 h2
    have hperm : files1.Perm files2 :=
      (scanDirectory_sameEntries os sched1 sched2 fuel1 fuel2 path includeSubdirs _ _ h1 h2).2
    refine ⟨hperm, ?_⟩
    intro hnames
    simp only [sortFiles, if_true]
    refine sortedBy_unique lessName lessName_ordering _ _
      (((hS.perm lessName files1).trans hperm).trans (hS.perm lessName files2).symm)
      (hS.sorted _ _ lessName_ordering) (hS.sorted _ _ lessName_ordering) ?_
    intro a ha b hb hab
    exact hnames a ((hS.perm _ _).subset ha) b ((hS.perm _ _).subset hb)
      ((tied_lessName a b).mp hab)

/-- C8 (instance): two scans of `/r` without recursion under two schedules. -/
theorem scans_sorted_by_name_agree_witness :
    SliceContract insertionSort ∧
    scanDirectory demoOS spawnOrder 1 "/r" false
      = some ([⟨"a", 0, true, 0o755, 10⟩, ⟨"b", 0, true, 0o755, 20⟩], none) ∧
    scanDirectory demoOS secondFirst 1 "/r" false
      = some ([⟨"b", 0, true, 0o755, 20⟩, ⟨"a", 0, true, 0o755, 10⟩], none) ∧
    sortFiles insertionSort 1 [⟨"a", 0, true, 0o755, 10⟩, ⟨"b", 0, true, 0o755, 20⟩]
      = sortFiles insertionSort 1 [⟨"b", 0, true, 0o755, 20⟩, ⟨"a", 0, true, 0o755, 10⟩] :=
  ⟨insertionSort_contract, by decide, by decide,
    ((scans_sorted_by_name_agree insertionSort insertionSort_contract demoOS spawnOrder
      secondFirst 1 "/r" false _ (by decide)).2 1 _ (by decide)).2 (by decide)⟩

/-- C10 (as stated, refuted): the loop sorts with `sort.Slice`, which may move entries
whose keys are equal. Up to Go 1.18 it sorts a slice of at most 12 elements by one pass
with gap 6 followed by insertion sort: on the seven entries of `sevenFiles`, sorted by
modification time, the pass swaps `g` with `a`, so `g` ends up in front of `b` to `f`,
which have the same modification time and were scanned before it. From Go 1.19 on it is
`pdqsort_func`: on the thirteen entries of `thirteenFiles` the partitioning step moves
`g` in front of `a` to `f` and `b` behind `c` to `l`, all with the same modification
time; the result is a permutation ordered by modification time. -/
theorem sort_moves_tied_entries :
    (SliceContract gapInsertionSort ∧
      sortFiles gapInsertionSort 3 sevenFiles =
        [⟨"g", 0, false, 0o644, 1⟩, ⟨"b", 0, false, 0o644, 1⟩, ⟨"c", 0, false, 0o644, 1⟩,
         ⟨"d", 0, false, 0o644, 1⟩, ⟨"e", 0, false, 0o644, 1⟩, ⟨"f", 0, false, 0o644, 1⟩,
         ⟨"a", 0, false, 0o644, 2⟩] ∧
      ¬ KeepsTieOrder gapInsertionSort 3 sevenFiles) ∧
    (∀ next : Nat → Nat,
      sortFiles (pdqSlice next) 3 thirteenFiles = thirteenMoved ∧
      thirteenMoved.Perm thirteenFiles ∧ OrderedByModification thirteenMoved ∧
      ¬ KeepsTieOrder (pdqSlice next) 3 thirteenFiles) := by
  refine ⟨⟨gapInsertionSort_contract, by decide, ?_⟩, ?_⟩
  · intro h
    have := h lessModification (by simp [comparatorOf]) ⟨"b", 0, false, 0o644, 1⟩
    revert this
    decide
  · intro next
    have hsort : sortFiles (pdqSlice next) 3 thirteenFiles = thirteenMoved := by
      rw [sortFiles_three]
      exact pdqSlice_thirteenFiles next
    refine ⟨hsort, ?_, ?_, ?_⟩
    · have hback : insertionSort lessName thirteenMoved = thirteenFiles := by
        rw [lessName_eq]
        decide
      rw [← hback]
      exact (insertionSort_perm lessName thirteenMoved).symm
    · unfold OrderedByModification
      decide
    · intro h
      have := h lessModification (by simp [comparatorOf]) ⟨"b", 0, false, 0o644, 1⟩
      rw [hsort] at this
      revert this
      decide

/-- C10 (amended): on a slice of at most 6 entries, sorted in any mode by the
`sort.Slice` of any version of the library, and on a slice of at most 12 entries sorted
by the `sort.Slice` of Go 1.19 and later (for every pseudo-random generator), the
entries whose keys are equal keep their relative scan order; a slice of any length is
left as scanned when `sortBy` selects no branch. On a longer slice, for every
`sort.Slice` that meets its contract, the entries tied with an entry `x` are after the
switch a permutation of those before it. -/
theorem sort_keeps_tie_order_on_short_slices (next : Nat → Nat) (sortBy : Int)
    (files : List FileInfo) :
    (files.length ≤ 6 → KeepsTieOrder gapInsertionSort sortBy files) ∧
    (files.length ≤ 12 → KeepsTieOrder (pdqSlice next) sortBy files) ∧
    (comparatorOf sortBy = none → ∀ sortSlice : Sorter, sortFiles sortSlice sortBy files = files) ∧
    (∀ sortSlice : Sorter, SliceContract sortSlice → ∀ less x,
      ((sortFiles sortSlice sortBy files).filter (tied less x)).Perm
        (files.filter (tied less x))) := by
  refine ⟨?_, ?_, ?_, ?_⟩
  · intro hlen less hless x
    have hk := keepsTieOrder_insertionSort sortBy files less hless x
    obtain ⟨_, hsort⟩ := comparatorOf_some sortBy less hless
    rw [hsort] at hk ⊢
    rw [gapInsertionSort_short less files hlen]
    exact hk
  · intro hlen less hless x
    have hk := keepsTieOrder_insertionSort sortBy files less hless x
    obtain ⟨_, hsort⟩ := comparatorOf_some sortBy less hless
    rw [hsort] at hk ⊢
    rw [pdqSlice_short next less files hlen]
    exact hk
  · intro hnone sortSlice
    unfold comparatorOf at hnone
    unfold sortFiles
    split_ifs at hnone ⊢
    rfl
  · intro sortSlice hS less x
    have hperm : (sortFiles sortSlice sortBy files).Perm files := by
      unfold sortFiles
      split_ifs
      · exact hS.perm _ _
      · exact hS.perm _ _
      · exact hS.perm _ _
      · exact hS.perm _ _
      · exact List.Perm.refl _
    exact hperm.filter _

/-- C10 (instance): the first six entries of `sevenFiles`, sorted by modification time
by the library up to Go 1.18, keep `b` to `f` in scan order while the newest entry `a`
moves to the end; so do all seven under Go 1.19 and later; with `sortBy = 0` the seven
entries stay as scanned. -/
theorem sort_keeps_tie_order_on_short_slices_witness :
    sortFiles gapInsertionSort 3 (sevenFiles.take 6) =
      [⟨"b", 0, false, 0o644, 1⟩, ⟨"c", 0, false, 0o644, 1⟩, ⟨"d", 0, false, 0o644, 1⟩,
       ⟨"e", 0, false, 0o644, 1⟩, ⟨"f", 0, false, 0o644, 1⟩, ⟨"a", 0, false, 0o644, 2⟩] ∧
    KeepsTieOrder gapInsertionSort 3 (sevenFiles.take 6) ∧
    KeepsTieOrder (pdqSlice id) 3 sevenFiles ∧
    sortFiles gapInsertionSort 0 sevenFiles = sevenFiles ∧
    ((sortFiles gapInsertionSort 3 sevenFiles).filter
        (tied lessModification ⟨"b", 0, false, 0o644, 1⟩)).Perm
      (sevenFiles.filter (tied lessModification ⟨"b", 0, false, 0o644, 1⟩)) :=
  ⟨by decide,
    (sort_keeps_tie_order_on_short_slices id 3 (sevenFiles.take 6)).1 (by decide),
    (sort_keeps_tie_order_on_short_slices id 3 sevenFiles).2.1 (by decide),
    (sort_keeps_tie_order_on_short_slices id 0 sevenFiles).2.2.1 (by simp [comparatorOf])
      gapInsertionSort,
    (sort_keeps_tie_order_on_short_slices id 3 sevenFiles).2.2.2 gapInsertionSort
      gapInsertionSort_contract _ _⟩

end FileExplorer
